import Mathlib

/-!
Verification development for the SemanticCodeIndexer repository
(`src/parser.ts`, class `CodeParser`).

The development shallowly embeds the chunk-extraction and relationship
analysis logic of `CodeParser`.  Syntax-tree values that ts-morph would
produce (classes, properties, methods, call expressions, …) are modelled
as explicit inductive data; every extraction function below is a direct
translation of the corresponding TypeScript function, keeping the source
order of emission, the exact string heuristics (`includes`, `toLowerCase`,
`startsWith`), the regular-expression matching used on constructor bodies,
and the fallback chains.  Chunk fields that no claim mentions
(`filePath`, `startColumn`, `endColumn`, `code`, `docstring`,
`repository`, `module`, `functionName`, `relatedTestCases`) are omitted
from the chunk record; their computation does not interact with the
fields modelled here.
-/

namespace SemanticCodeIndexer

/-! ### JavaScript string primitives -/

/-- Character-list prefix test (mirrors the start of a JS `includes` scan). -/
def chPrefix : List Char → List Char → Bool
  | [], _ => true
  | _ :: _, [] => false
  | a :: as, b :: bs => a == b && chPrefix as bs

/-- Substring containment on character lists; `chInfix sub l` is
`String.prototype.includes(sub)` applied to `l`. -/
def chInfix (sub : List Char) : List Char → Bool
  | [] => chPrefix sub []
  | l@(_ :: tl) => chPrefix sub l || chInfix sub tl

/-- JS `s.includes(sub)`. -/
def jsIncludes (s sub : String) : Bool := chInfix sub.data s.data

/-- JS `s.startsWith(sub)`. -/
def jsStartsWith (s sub : String) : Bool := chPrefix sub.data s.data

/-- ASCII lower-casing, modelling `String.prototype.toLowerCase` on the
ASCII vocabulary the parser scans for. -/
def jsLower (s : String) : String := String.mk (s.data.map Char.toLower)

/-- The whitespace class of the JS regular-expression escape `\s`
(restricted to the ASCII range). -/
def isWsChar (c : Char) : Bool :=
  c == ' ' || c == '\t' || c == '\n' || c == '\r' || c == '\x0b' || c == '\x0c'

/-- The word class of the JS regular-expression escape `\w`. -/
def isWordChar (c : Char) : Bool :=
  (c ≥ 'a' && c ≤ 'z') || (c ≥ 'A' && c ≤ 'Z') || (c ≥ '0' && c ≤ '9') || c == '_'

/-- Number of newline characters in a character list (what
`(text.match(/\n/g) || []).length` computes). -/
def countNl (l : List Char) : Nat := l.countP (· == '\n')

/-- JS `String.prototype.trim`. -/
def jsTrim (l : List Char) : List Char :=
  ((l.dropWhile isWsChar).reverse.dropWhile isWsChar).reverse

/-- A quote character stripped by `extractStringValue`. -/
def isQuoteChar (c : Char) : Bool := c == '"' || c == '\'' || c == '`'

/-- `CodeParser.extractStringValue`:
`text.replace(/^["'`]/g, '').replace(/["'`]$/g, '').trim()` — the anchored
global regexes strip at most one leading and one trailing quote. -/
def extractStringValue (text : String) : String :=
  let l := text.data
  let l := match l with
    | c :: r => if isQuoteChar c then r else l
    | [] => l
  let l := if (l.getLast?.map isQuoteChar).getD false then l.dropLast else l
  String.mk (jsTrim l)

/-- JS `x || '<default>'` applied to `getName()` results: both `undefined`
and the empty string are falsy. -/
def jsOrElse (s : Option String) (d : String) : String :=
  match s with
  | some v => if v == "" then d else v
  | none => d

/-! ### The chunk record

Only the fields the claims inspect are kept (see the header comment). -/

structure Chunk where
  name : String
  type : String
  className : Option String := none
  testSuiteName : Option String := none
  startLine : Nat
  endLine : Nat
  deriving Repr, DecidableEq

/-- The closed chunk-kind enumeration of `types.ts`. -/
def chunkKinds : List String :=
  ["function", "class", "method", "arrow_function", "constructor",
   "locator", "action", "assert", "helper", "test", "setup", "fixture",
   "constant", "iife"]

/-! ### Constructor-body regular expressions

`extractLocatorsFromClass` matches `new RegExp(`this\.NAME\s*=([^;]+);`, 's')`
against the constructor body; `extractSimpleProperties` repeatedly executes
`/this\.(\w+)\s*=\s*([^;]+);/g`.  Both are deterministic on their inputs;
the shared tail `\s*` `=` `([^;]+)` `;` is factored out below. -/

/-- Match `\s*=([^;]+);` at the head of `l`; returns the consumed length and
the characters of the `[^;]+` group (which, being unable to cross a `;`,
is the maximal run of non-`;` characters after the `=`, required nonempty
and followed by `;`). -/
def matchEq (l : List Char) : Option (Nat × List Char) :=
  match l.drop (l.takeWhile isWsChar).length with
  | '=' :: r2 =>
    if (r2.takeWhile (· != ';')).isEmpty then none
    else
      match r2.drop (r2.takeWhile (· != ';')).length with
      | ';' :: _ =>
        some ((l.takeWhile isWsChar).length + 1 + (r2.takeWhile (· != ';')).length + 1,
              r2.takeWhile (· != ';'))
      | _ => none
  | _ => none

/-- The literal characters `this.` followed by a property name. -/
def thisDot (name : List Char) : List Char := "this.".data ++ name

/-- Match the locator-initialization regex `this\.NAME\s*=([^;]+);` at the
head of `l`; returns the length of the whole match (`match[0].length`). -/
def matchLocAt (name : List Char) (l : List Char) : Option Nat :=
  if chPrefix (thisDot name) l then
    (matchEq (l.drop (thisDot name).length)).map
      (fun p => (thisDot name).length + p.1)
  else none

/-- First match of a position matcher over a string, as
`String.prototype.match` with a non-global regex: the earliest index at
which the matcher succeeds, with the match length. -/
def findMatch (f : List Char → Option Nat) : List Char → Option (Nat × Nat)
  | [] => none
  | l@(_ :: tl) =>
    match f l with
    | some len => some (0, len)
    | none => (findMatch f tl).map (fun p => (p.1 + 1, p.2))

/-- Match the simple-property regex `this\.(\w+)\s*=\s*([^;]+);` at the head
of `l`: the name is the maximal nonempty `\w+` run, and the greedy `\s*`
after `=` backtracks just enough to leave the `([^;]+)` group nonempty. -/
def matchAssignAt (l : List Char) : Option (String × String × Nat) :=
  if chPrefix "this.".data l then
    if ((l.drop 5).takeWhile isWordChar).isEmpty then none
    else
      match matchEq ((l.drop 5).drop ((l.drop 5).takeWhile isWordChar).length) with
      | some (n, v) =>
        some (String.mk ((l.drop 5).takeWhile isWordChar),
              String.mk (v.drop (min (v.takeWhile isWsChar).length (v.length - 1))),
              5 + ((l.drop 5).takeWhile isWordChar).length + n)
      | none => none
  else none

/-- All matches of the global regex `/this\.(\w+)\s*=\s*([^;]+);/g` over a
constructor body, in `exec`-loop order: each entry is
`(match.index, name, value, match[0].length)`; scanning resumes after each
match.  Fuel is the remaining length (every match consumes at least one
character, so `l.length` steps suffice). -/
def scanAssignsAux : Nat → List Char → Nat → List (Nat × String × String × Nat)
  | 0, _, _ => []
  | _ + 1, [], _ => []
  | fuel + 1, l@(_ :: tl), i =>
    match matchAssignAt l with
    | some (nm, v, len) => (i, nm, v, len) :: scanAssignsAux fuel (l.drop len) (i + len)
    | none => scanAssignsAux fuel tl (i + 1)

def scanAssigns (l : List Char) : List (Nat × String × String × Nat) :=
  scanAssignsAux l.length l 0

/-! ### Class declarations (the ts-morph view used by the POM extractor) -/

/-- A class property declaration: `getName()`, `getType().getText()`,
`getInitializer()?.getText()`, and its line span. -/
structure PropDecl where
  name : String
  typeText : String
  initText : Option String
  startLine : Nat
  endLine : Nat
  deriving Repr, DecidableEq

/-- A class method: `getName()`, `getText()`, and its line span. -/
structure MethodDecl where
  name : String
  text : String
  startLine : Nat
  endLine : Nat
  deriving Repr, DecidableEq

/-- A constructor: `getBodyText()` and `getStartLineNumber()`. -/
structure CtorDecl where
  bodyText : String
  startLine : Nat
  deriving Repr, DecidableEq

/-- A class declaration; `ctor` is `getConstructors()[0]`. -/
structure ClassDecl where
  name : Option String
  props : List PropDecl
  ctor : Option CtorDecl
  methods : List MethodDecl
  startLine : Nat
  endLine : Nat
  deriving Repr, DecidableEq

/-! ### `extractLocatorsFromClass` -/

/-- The locator chunk emitted for a constructor-matched property:
`startLine`/`endLine` are the constructor start line plus the newline
counts before and within the match. -/
def locCtorChunk (className : String) (ctorStart : Nat) (body : List Char)
    (propName : String) (idx len : Nat) : Chunk :=
  let before := body.take idx
  let matched := (body.drop idx).take len
  { name := propName, type := "locator", className := some className,
    startLine := ctorStart + countNl before,
    endLine := ctorStart + countNl before + countNl matched }

/-- The locator chunk emitted from a property's own declaration span. -/
def locPropChunk (className : String) (p : PropDecl) : Chunk :=
  { name := p.name, type := "locator", className := some className,
    startLine := p.startLine, endLine := p.endLine }

/-- `CodeParser.extractLocatorsFromClass`.  With a constructor: every
property whose declared type text contains `Locator` is looked up in the
constructor body via the regex; on a match a constructor-relative chunk is
emitted, otherwise the property initializer is consulted for
`page.locator`/`page.getByRole`.  Without a constructor: every property
initializer is consulted for those markers (no type filter). -/
def extractLocatorsFromClass (className : String) (cls : ClassDecl) : List Chunk :=
  match cls.ctor with
  | some ctor =>
    cls.props.filterMap (fun p =>
      if !(jsIncludes p.typeText "Locator") then none
      else
        match findMatch (matchLocAt p.name.data) ctor.bodyText.data with
        | some (idx, len) =>
          some (locCtorChunk className ctor.startLine ctor.bodyText.data p.name idx len)
        | none =>
          match p.initText with
          | some it =>
            if jsIncludes it "page.locator" || jsIncludes it "page.getByRole" then
              some (locPropChunk className p)
            else none
          | none => none)
  | none =>
    cls.props.filterMap (fun p =>
      match p.initText with
      | some it =>
        if jsIncludes it "page.locator" || jsIncludes it "page.getByRole" then
          some (locPropChunk className p)
        else none
      | none => none)

/-! ### `extractSimpleProperties` -/

/-- The helper chunk emitted for a constructor assignment found by the
global regex scan. -/
def simpleCtorChunk (className : String) (ctorStart : Nat) (body : List Char)
    (propName : String) (idx len : Nat) : Chunk :=
  let before := body.take idx
  let matched := (body.drop idx).take len
  { name := propName, type := "helper", className := some className,
    startLine := ctorStart + countNl before,
    endLine := ctorStart + countNl before + countNl matched }

/-- One step of the constructor-assignment loop of
`extractSimpleProperties`: skip locator-construction values, then skip
names already in the processed set, else emit and record the name. -/
def simpleStep (className : String) (ctorStart : Nat) (body : List Char)
    (acc : List Chunk × List String) (m : Nat × String × String × Nat) :
    List Chunk × List String :=
  if jsIncludes m.2.2.1 "page.locator" || jsIncludes m.2.2.1 "page.getBy" then acc
  else if acc.2.contains m.2.1 then acc
  else (acc.1 ++ [simpleCtorChunk className ctorStart body m.2.1 m.1 m.2.2.2],
        acc.2 ++ [m.2.1])

/-- One step of the direct-initializer loop of `extractSimpleProperties`. -/
def simpleInitStep (className : String)
    (acc : List Chunk × List String) (p : PropDecl) : List Chunk × List String :=
  if acc.2.contains p.name then acc
  else if jsIncludes p.typeText "Locator" then acc
  else
    match p.initText with
    | some it =>
      if !(jsIncludes it "page.locator") && !(jsIncludes it "page.getBy") then
        (acc.1 ++ [{ name := p.name, type := "helper", className := some className,
                     startLine := p.startLine, endLine := p.endLine }],
         acc.2 ++ [p.name])
      else acc
    | none => acc

/-- `CodeParser.extractSimpleProperties`: the `processedProps` set starts
empty, is filled by the constructor-assignment loop, and persists into the
direct-initializer loop. -/
def extractSimpleProperties (className : String) (cls : ClassDecl) : List Chunk :=
  let afterCtor :=
    match cls.ctor with
    | some ctor =>
      (scanAssigns ctor.bodyText.data).foldl
        (simpleStep className ctor.startLine ctor.bodyText.data) ([], [])
    | none => ([], [])
  (cls.props.foldl (simpleInitStep className) afterCtor).1

/-! ### `determineChunkType` and the merged methods chunk -/

/-- `CodeParser.determineChunkType`: assertion vocabulary first (\'expect\'
and \'assert\' in the content, \'verify\'/\'check\'/\'should\'/\'assert\' in the
joined names), then action vocabulary, else `helper`. -/
def determineChunkType (methodNames : List String) (content : String) : String :=
  let contentLower := jsLower content
  let namesLower := jsLower (String.intercalate " " methodNames)
  if jsIncludes contentLower "expect" || jsIncludes contentLower "assert" ||
     jsIncludes namesLower "verify" || jsIncludes namesLower "check" ||
     jsIncludes namesLower "should" || jsIncludes namesLower "assert" then
    "assert"
  else if jsIncludes contentLower "click" || jsIncludes contentLower "fill" ||
     jsIncludes contentLower "goto" || jsIncludes contentLower ".selectoption" ||
     jsIncludes namesLower "click" || jsIncludes namesLower "navigate" ||
     jsIncludes namesLower "select" || jsIncludes namesLower "type" ||
     jsIncludes namesLower "submit" || jsIncludes namesLower "open" ||
     jsIncludes namesLower "close" || jsIncludes namesLower "drag" ||
     jsIncludes namesLower "drop" then
    "action"
  else "helper"

/-- The single `<ClassName>_actions` chunk merging all methods of a class
(`extractPlaywrightPOMChunks`, methods branch).  The classifier content is
`code || ''`: the joined method texts when `includeCode` is set, otherwise
the empty string. -/
def methodsChunk (includeCode : Bool) (className : String) (cls : ClassDecl) :
    Option Chunk :=
  match cls.methods with
  | [] => none
  | m0 :: rest =>
    some { name := className ++ "_actions",
           type := determineChunkType ((m0 :: rest).map (·.name))
             (if includeCode then
               String.intercalate "\n\n" ((m0 :: rest).map (·.text)) else ""),
           className := some className,
           startLine := m0.startLine,
           endLine := ((m0 :: rest).getLast (List.cons_ne_nil m0 rest)).endLine }

/-- The fallback `<ClassName>_class` chunk. -/
def fallbackClassChunk (className : String) (cls : ClassDecl) : Chunk :=
  { name := className ++ "_class", type := "helper", className := some className,
    startLine := cls.startLine, endLine := cls.endLine }

/-- The chunks the three per-class extractors contribute for one class. -/
def perClassChunks (includeCode : Bool) (cls : ClassDecl) : List Chunk :=
  extractLocatorsFromClass (jsOrElse cls.name "<anonymous>") cls ++
  extractSimpleProperties (jsOrElse cls.name "<anonymous>") cls ++
  (methodsChunk includeCode (jsOrElse cls.name "<anonymous>") cls).toList

/-- The loop body of `extractPlaywrightPOMChunks`: push the per-class
chunks onto the accumulated file-wide list, then — testing the length of
that accumulated list — emit the fallback class chunk when it is still
empty and the class has a constructor. -/
def pomClassStep (includeCode : Bool) (acc : List Chunk) (cls : ClassDecl) :
    List Chunk :=
  let acc2 := acc ++ perClassChunks includeCode cls
  if acc2.length == 0 then
    match cls.ctor with
    | some _ => acc2 ++ [fallbackClassChunk (jsOrElse cls.name "<anonymous>") cls]
    | none => acc2
  else acc2

/-! ### Call-expression trees (the ts-morph view used by the spec and
edge-case extractors)

A node records its source text (`getText()`), line span, and the children
relevant to `getDescendantsOfKind(CallExpression)` and `getAncestors()`.
A call's callee is kept as its text plus the one kind distinction the
source inspects (parenthesized function/arrow, used by the IIFE scan);
sub-expressions of the callee are not modelled.  Object-literal entries
are modelled as property assignments (the only entries the source keeps). -/

inductive Callee where
  | parenFn (txt : String)
  | plain (txt : String)
  deriving Repr, DecidableEq

def calleeText : Callee → String
  | .parenFn t => t
  | .plain t => t

inductive Expr where
  | call (callee : Callee) (args : List Expr) (txt : String) (sl el : Nat)
  | strLit (txt : String) (sl el : Nat)
  | objLit (props : List (String × Expr × Nat × Nat)) (txt : String) (sl el : Nat)
  | exprStmt (inner : Expr) (txt : String) (sl el : Nat)
  | other (children : List Expr) (txt : String) (sl el : Nat)

def Expr.text : Expr → String
  | .call _ _ t _ _ => t
  | .strLit t _ _ => t
  | .objLit _ t _ _ => t
  | .exprStmt _ t _ _ => t
  | .other _ t _ _ => t

def Expr.sline : Expr → Nat
  | .call _ _ _ s _ => s
  | .strLit _ s _ => s
  | .objLit _ _ s _ => s
  | .exprStmt _ _ s _ => s
  | .other _ _ s _ => s

def Expr.eline : Expr → Nat
  | .call _ _ _ _ e => e
  | .strLit _ _ e => e
  | .objLit _ _ _ e => e
  | .exprStmt _ _ _ e => e
  | .other _ _ _ e => e

def Expr.isStrLit : Expr → Bool
  | .strLit _ _ _ => true
  | _ => false

def Expr.isObjLit : Expr → Bool
  | .objLit _ _ _ _ => true
  | _ => false

/-! Pre-order traversal collecting every call expression together with the
callee texts of its enclosing call expressions (what the source recovers
from `getAncestors()` by keeping only `CallExpression` ancestors) and
whether its direct parent is an expression statement (what the IIFE scan
checks with `getParent()?.getKind() === ExpressionStatement`). -/
mutual
def callsCtx (anc : List String) (pstmt : Bool) :
    Expr → List (Expr × List String × Bool)
  | .call c args txt sl el =>
    (.call c args txt sl el, anc, pstmt) ::
      callsCtxL (calleeText c :: anc) args
  | .strLit _ _ _ => []
  | .objLit props _ _ _ => callsCtxP anc props
  | .exprStmt inner _ _ _ => callsCtx anc true inner
  | .other children _ _ _ => callsCtxL anc children

def callsCtxL (anc : List String) : List Expr → List (Expr × List String × Bool)
  | [] => []
  | e :: es => callsCtx anc false e ++ callsCtxL anc es

def callsCtxP (anc : List String) :
    List (String × Expr × Nat × Nat) → List (Expr × List String × Bool)
  | [] => []
  | (_, e, _, _) :: ps => callsCtx anc false e ++ callsCtxP anc ps
end

/-- `node.getDescendantsOfKind(SyntaxKind.CallExpression)`: the call
expressions strictly below a node, in pre-order. -/
def callDescs : Expr → List Expr
  | .call _ args _ _ _ => (callsCtxL [] args).map (·.1)
  | e => (callsCtx [] false e).map (·.1)

/-! ### `extractPlaywrightSpecChunks` -/

/-- The describe filter: `exprText === 'describe' || exprText.includes('test.describe')`. -/
def isDescribeText (t : String) : Bool :=
  t == "describe" || jsIncludes t "test.describe"

/-- The test filter: `exprText === 'test' || exprText === 'it' ||
exprText.startsWith('test.only') || exprText.startsWith('it.only')`. -/
def isTestText (t : String) : Bool :=
  t == "test" || t == "it" || jsStartsWith t "test.only" || jsStartsWith t "it.only"

/-- The before/after lifecycle-hook test: `/^(before|after)/i.test(name)`. -/
def isHookName (s : String) : Bool :=
  jsStartsWith (jsLower s) "before" || jsStartsWith (jsLower s) "after"

/-- One grouped test chunk, or `none` for skipped calls (fewer than two
arguments, or a lifecycle-hook name). -/
def groupedTestChunk (suiteName : String) (tc : Expr) : Option Chunk :=
  match tc with
  | .call _ (a0 :: _ :: _) _ sl el =>
    if isHookName (extractStringValue a0.text) then none
    else some { name := extractStringValue a0.text, type := "test",
                testSuiteName := some suiteName, startLine := sl, endLine := el }
  | _ => none

/-- One standalone test chunk, with the same argument/name guards but no
suite name. -/
def standaloneTestChunk (tc : Expr) : Option Chunk :=
  match tc with
  | .call _ (a0 :: _ :: _) _ sl el =>
    if isHookName (extractStringValue a0.text) then none
    else some { name := extractStringValue a0.text, type := "test",
                testSuiteName := none, startLine := sl, endLine := el }
  | _ => none

/-- The callback argument of a describe call: `args[2]` when there are at
least three arguments and `args[1]` is an object literal, else `args[1]`. -/
def describeCallback (a1 : Expr) (rest : List Expr) : Expr :=
  match rest with
  | a2 :: _ => if a1.isObjLit then a2 else a1
  | [] => a1

/-- `call.getExpression().getText()`; the empty text (matching no filter)
for non-call nodes. -/
def calleeTextOf : Expr → String
  | .call c _ _ _ _ => calleeText c
  | _ => ""

/-- The chunks one describe call contributes: skipped entirely when it has
fewer than two arguments, else one chunk per test-case call found among
the descendants of its callback. -/
def describeChunks (dc : Expr) : List Chunk :=
  match dc with
  | .call _ (a0 :: a1 :: rest) _ _ _ =>
    let suiteName := extractStringValue a0.text
    let callback := describeCallback a1 rest
    ((callDescs callback).filter (fun e => isTestText (calleeTextOf e))).filterMap
      (groupedTestChunk suiteName)
  | _ => []

/-- A spec file, as the list of its top-level statements. -/
structure SpecStmts where
  stmts : List Expr

/-- All call expressions of the file with their ancestor context. -/
def fileCalls (f : SpecStmts) : List (Expr × List String × Bool) :=
  callsCtxL [] f.stmts

/-- The grouped scan: every describe-like call contributes the chunks of
the test calls inside its callback. -/
def groupedChunksOf (f : SpecStmts) : List Chunk :=
  (((fileCalls f).map (·.1)).filter (fun e => isDescribeText (calleeTextOf e))).flatMap
    describeChunks

/-- One step of the standalone scan: a test-like call is skipped when a
describe-like call occurs among its ancestors. -/
def standaloneEntry (ec : Expr × List String × Bool) : Option Chunk :=
  if isTestText (calleeTextOf ec.1) then
    if ec.2.1.any isDescribeText then none
    else standaloneTestChunk ec.1
  else none

/-- The standalone scan over all call expressions of the file. -/
def standaloneChunksOf (f : SpecStmts) : List Chunk :=
  (fileCalls f).filterMap standaloneEntry

/-- `CodeParser.extractPlaywrightSpecChunks`: the grouped scan over every
describe-like call, followed by the standalone scan over every test-like
call that has no describe-like call among its ancestors. -/
def extractPlaywrightSpecChunks (f : SpecStmts) : List Chunk :=
  groupedChunksOf f ++ standaloneChunksOf f

/-! ### The per-file source model

`parseFile` views one parsed source file through several ts-morph
accessors; the model packages the views the extractors read:
`getClasses()`, `getFunctions()`, `getVariableStatements()` (and through
them `getVariableDeclarations()`), the statement tree (for call-expression
descendant scans), and the file's base name. -/

/-- A top-level function declaration: `getName()` and its line span. -/
structure FuncDecl where
  name : Option String
  startLine : Nat
  endLine : Nat
  deriving Repr, DecidableEq

/-- The syntactic kind of a variable declaration's initializer, as far as
the source inspects it (`getKind()` comparisons). -/
inductive InitKind where
  | objLitK
  | arrayLitK
  | arrowK
  | otherK
  deriving Repr, DecidableEq

/-- A variable declaration: `getName()`, the initializer kind (none for no
initializer), and its line span. -/
structure VarDecl where
  name : String
  initKind : Option InitKind
  startLine : Nat
  endLine : Nat
  deriving Repr, DecidableEq

/-- A top-level variable statement: export flag and its declarations. -/
structure VarStatement where
  exported : Bool
  decls : List VarDecl
  deriving Repr, DecidableEq

structure FileModel where
  fileName : String
  stmts : List Expr
  classes : List ClassDecl
  functions : List FuncDecl
  varStatements : List VarStatement

/-- `sourceFile.getVariableDeclarations()`. -/
def FileModel.varDecls (f : FileModel) : List VarDecl :=
  f.varStatements.flatMap (·.decls)

/-! ### `extractGenericChunks` -/

/-- `CodeParser.extractGenericChunks`: one chunk per top-level function,
per class, per class method, and per variable declaration whose
initializer is an arrow function, in that order.  Missing or empty names
fall back to `<anonymous>` through the JS `||`. -/
def extractGenericChunks (f : FileModel) : List Chunk :=
  (f.functions.map (fun fd =>
    { name := jsOrElse fd.name "<anonymous>", type := "function",
      startLine := fd.startLine, endLine := fd.endLine })) ++
  (f.classes.flatMap (fun cls =>
    { name := jsOrElse cls.name "<anonymous>", type := "class",
      className := some (jsOrElse cls.name "<anonymous>"),
      startLine := cls.startLine, endLine := cls.endLine } ::
    cls.methods.map (fun m =>
      { name := jsOrElse (some m.name) "<anonymous>",
        type := if m.name == "constructor" then "constructor" else "method",
        className := some (jsOrElse cls.name "<anonymous>"),
        startLine := m.startLine, endLine := m.endLine }))) ++
  (f.varDecls.filterMap (fun v =>
    if v.initKind == some .arrowK then
      some { name := v.name, type := "arrow_function",
             startLine := v.startLine, endLine := v.endLine }
    else none))

/-- The syntax node a generic chunk was emitted from. -/
inductive GSrc where
  | fromFunc (fd : FuncDecl)
  | fromClass (cd : ClassDecl)
  | fromMethod (cd : ClassDecl) (m : MethodDecl)
  | fromVar (v : VarDecl)
  deriving Repr, DecidableEq

/-- Whether the originating node is an anonymous function or class node:
a function or class declaration with no (or an empty) name, a method with
an empty name, or an arrow-function expression (arrow functions carry no
name of their own). -/
def GSrc.isAnonNode : GSrc → Bool
  | .fromFunc fd => fd.name == none || fd.name == some ""
  | .fromClass cd => cd.name == none || cd.name == some ""
  | .fromMethod _ m => m.name == ""
  | .fromVar _ => true

/-- The name bound by the nearest enclosing binding of the originating
node, walking its structural ancestors.  The generic profile only ever
emits top-level function and class declarations, their methods, and arrow
functions standing directly as a variable declarator's initializer: the
declarations and methods are statements or members with no enclosing
variable declarator or object-literal property, and the arrow's nearest
(indeed immediate) enclosing binding is its declarator. -/
def GSrc.nearestBindingName : GSrc → Option String
  | .fromVar v => some v.name
  | _ => none

/-- `extractGenericChunks` instrumented with the originating node of each
chunk (same traversal, same order). -/
def extractGenericChunksSrc (f : FileModel) : List (Chunk × GSrc) :=
  (f.functions.map (fun fd =>
    ({ name := jsOrElse fd.name "<anonymous>", type := "function",
       startLine := fd.startLine, endLine := fd.endLine }, GSrc.fromFunc fd))) ++
  (f.classes.flatMap (fun cls =>
    ({ name := jsOrElse cls.name "<anonymous>", type := "class",
       className := some (jsOrElse cls.name "<anonymous>"),
       startLine := cls.startLine, endLine := cls.endLine }, GSrc.fromClass cls) ::
    cls.methods.map (fun m =>
      ({ name := jsOrElse (some m.name) "<anonymous>",
         type := if m.name == "constructor" then "constructor" else "method",
         className := some (jsOrElse cls.name "<anonymous>"),
         startLine := m.startLine, endLine := m.endLine }, GSrc.fromMethod cls m)))) ++
  (f.varDecls.filterMap (fun v =>
    if v.initKind == some .arrowK then
      some ({ name := v.name, type := "arrow_function",
              startLine := v.startLine, endLine := v.endLine }, GSrc.fromVar v)
    else none))

/-! ### `extractEdgeCasePatterns` -/

/-- The setup-call scan (part 1 of `extractEdgeCasePatterns`). -/
def setupChunks (f : FileModel) : List Chunk :=
  (callsCtxL [] f.stmts).filterMap (fun ec =>
    match ec.1 with
    | .call c args _ sl el =>
      if calleeText c == "setup" || jsIncludes (calleeText c) "test.use" then
        match args with
        | a0 :: _ =>
          some { name := if a0.isStrLit then extractStringValue a0.text else "Setup",
                 type := "setup", startLine := sl, endLine := el }
        | [] => none
      else none
    | _ => none)

/-- The `test.extend`/`base.extend` fixture scan (part 2). -/
def extendChunks (f : FileModel) : List Chunk :=
  (callsCtxL [] f.stmts).flatMap (fun ec =>
    match ec.1 with
    | .call c args _ _ _ =>
      if jsIncludes (calleeText c) "test.extend" || jsIncludes (calleeText c) "base.extend" then
        match args with
        | .objLit props _ _ _ :: _ =>
          props.map (fun p =>
            { name := p.1, type := "fixture", startLine := p.2.2.1, endLine := p.2.2.2 })
        | _ => []
      else []
    | _ => [])

/-- The exported object/array constant scan (part 3). -/
def constantChunks (f : FileModel) : List Chunk :=
  f.varStatements.flatMap (fun vs =>
    if vs.exported then
      vs.decls.filterMap (fun d =>
        match d.initKind with
        | some .objLitK => some { name := d.name, type := "constant",
                                  startLine := d.startLine, endLine := d.endLine }
        | some .arrayLitK => some { name := d.name, type := "constant",
                                    startLine := d.startLine, endLine := d.endLine }
        | _ => none)
    else [])

/-- The IIFE scan (part 4): calls whose callee is a parenthesized
function/arrow and whose parent is an expression statement. -/
def iifeChunks (f : FileModel) : List Chunk :=
  (callsCtxL [] f.stmts).filterMap (fun ec =>
    match ec.1 with
    | .call (.parenFn _) _ _ sl el =>
      if ec.2.2 then
        some { name := "IIFE in " ++ f.fileName, type := "iife",
               startLine := sl, endLine := el }
      else none
    | _ => none)

/-- `CodeParser.extractEdgeCasePatterns`: the four scans in source order,
falling through to generic extraction when all come up empty. -/
def extractEdgeCasePatterns (f : FileModel) : List Chunk :=
  let chunks := setupChunks f ++ extendChunks f ++ constantChunks f ++ iifeChunks f
  if chunks.isEmpty then extractGenericChunks f else chunks

/-! ### `extractPlaywrightPOMChunks` (top level) -/

/-- `CodeParser.extractPlaywrightPOMChunks`: with no classes, fall back to
edge-case extraction and then generic extraction; otherwise run the
per-class loop, accumulating into one file-wide list. -/
def extractPlaywrightPOMChunks (includeCode : Bool) (f : FileModel) : List Chunk :=
  if f.classes.isEmpty then
    let edgeCaseChunks := extractEdgeCasePatterns f
    if edgeCaseChunks.length > 0 then edgeCaseChunks
    else extractGenericChunks f
  else
    f.classes.foldl (pomClassStep includeCode) []

/-! ### The import-relationship analyzer

`CodeParser` keeps two mutable maps (`Map<string, Set<string>>`); a map is
modelled as an insertion-ordered association list of keys to duplicate-free
value lists, which is exactly the observable behaviour of `Map`/`Set`. -/

abbrev RelMap := List (String × List String)

/-- `map.get(k)`. -/
def relGet : RelMap → String → Option (List String)
  | [], _ => none
  | (k', vs) :: rest, k => if k' == k then some vs else relGet rest k

/-- The idiom `if (!m.has(k)) m.set(k, new Set()); m.get(k)!.add(v)`. -/
def relAdd (m : RelMap) (k v : String) : RelMap :=
  match m with
  | [] => [(k, [v])]
  | (k', vs) :: rest =>
    if k' == k then (k', if vs.contains v then vs else vs ++ [v]) :: rest
    else (k', vs) :: relAdd rest k v

/-- Membership of `v` in the set stored under `k` (empty when absent). -/
def relMem (m : RelMap) (k v : String) : Prop :=
  v ∈ ((relGet m k).getD [])

/-- An import declaration of a test file: `getModuleSpecifierValue()` and
the names of its named imports. -/
structure ImportDecl where
  moduleSpecifier : String
  namedImports : List String
  deriving Repr, DecidableEq

/-- The mutable fields of `CodeParser` the claims are about: the two
relationship maps and `rootDir`.  (The ts-morph `Project` cache, which
`parseFile` also touches, holds no relationship data and is outside the
model.) -/
structure ParserState where
  pageObjectToTests : RelMap := []
  testToPageObjects : RelMap := []
  rootDir : String := ""

/-- POSIX path components. -/
def splitPath (p : String) : List String := p.splitOn "/"

def joinPath (ps : List String) : String := String.intercalate "/" ps

/-- `path.dirname` (POSIX model). -/
def dirnameOf (p : String) : String :=
  let parts := splitPath p
  if parts.length ≤ 1 then "." else joinPath parts.dropLast

/-- `CodeParser.findRootDir`: the prefix before the first
`src`/`tests`/`page-objects` component when that component is not first,
else the parent directory. -/
def findRootDir (p : String) : String :=
  let parts := splitPath p
  match parts.findIdx? (fun s => s == "src" || s == "tests" || s == "page-objects") with
  | some i => if i > 0 then joinPath (parts.take i) else dirnameOf p
  | none => dirnameOf p

/-- `CodeParser.getRelativePath` (`path.relative` modelled as prefix
stripping; no claim inspects the resulting path text). -/
def getRelativePath (rootDir p : String) : String :=
  if rootDir == "" then p
  else if jsStartsWith p (rootDir ++ "/") then
    String.mk (p.data.drop (rootDir ++ "/").length)
  else p

/-- Record one import edge in both maps (the body of the named-import loop
of `analyzeImportsForFile`). -/
def addRelation (st : ParserState) (className relPath : String) : ParserState :=
  { st with
    pageObjectToTests := relAdd st.pageObjectToTests className relPath,
    testToPageObjects := relAdd st.testToPageObjects relPath className }

/-- `CodeParser.analyzeImportsForFile`: for every import whose module
specifier mentions the page-object directory, record every named import. -/
def analyzeImportsForFile (st : ParserState) (testFilePath : String)
    (imports : List ImportDecl) : ParserState :=
  let relativeTestPath := getRelativePath st.rootDir testFilePath
  imports.foldl (fun st imp =>
    if jsIncludes imp.moduleSpecifier "page-objects" ||
       jsIncludes imp.moduleSpecifier "page-object" then
      imp.namedImports.foldl (fun st cn => addRelation st cn relativeTestPath) st
    else st) st

/-- One iteration of the `analyzeImports` loop.  Reading and registering a
test file can throw; a file's outcome is therefore `none` (error: caught
and logged, the state is left as it was) or `some imports` (analyzed). -/
def analyzeImportsStep (st : ParserState)
    (tf : String × Option (List ImportDecl)) : ParserState :=
  match tf.2 with
  | some imps => analyzeImportsForFile st tf.1 imps
  | none => st

/-- `CodeParser.analyzeImports`: set `rootDir`, then fold the per-file
step over the given test files. -/
def analyzeImports (st : ParserState) (rootDir : String)
    (testFiles : List (String × Option (List ImportDecl))) : ParserState :=
  testFiles.foldl analyzeImportsStep { st with rootDir := rootDir }

/-- The state effect of `CodeParser.parseFile`: it sets `rootDir` when
still unset and registers the file with the ts-morph project; it contains
no write to either relationship map (it reads `pageObjectToTests` through
`getRelatedTestCases`). -/
def parseFileState (st : ParserState) (filePath : String) : ParserState :=
  if st.rootDir == "" then { st with rootDir := findRootDir filePath } else st

/-- The operations a run performs against the mutable state. -/
inductive POp where
  | analyze (rootDir : String) (testFiles : List (String × Option (List ImportDecl)))
  | parse (filePath : String)

def runOp (st : ParserState) : POp → ParserState
  | .analyze rd tfs => analyzeImports st rd tfs
  | .parse fp => parseFileState st fp

/-- A whole run from the freshly constructed parser. -/
def runOps (ops : List POp) : ParserState := ops.foldl runOp {}

/-- The relationship graph is symmetric: `T ∈ pageObjectToTests[C]` holds
exactly when `C ∈ testToPageObjects[T]`. -/
def SymmetricGraph (st : ParserState) : Prop :=
  ∀ c t, relMem st.pageObjectToTests c t ↔ relMem st.testToPageObjects t c

/-! ### Well-formed spec files built from items (for the amended
exactly-once theorem)

`buildSpecFile` produces the syntax tree of a spec file with non-nested
grouping: top-level describe calls (title + callback holding the test
calls) and top-level standalone test calls, in any interleaving. -/

/-- One test call: the raw text of its first argument and its line span. -/
structure TestItem where
  raw : String
  startLine : Nat
  endLine : Nat

/-- One top-level item of the built spec file. -/
inductive SpecItem where
  | suite (raw : String) (tests : List TestItem) (sl el : Nat)
  | bare (t : TestItem)

/-- The tree of one test call: `test(<string>, <callback>)`. -/
def testCallOf (t : TestItem) : Expr :=
  .call (.plain "test")
    [.strLit t.raw t.startLine t.startLine,
     .other [] "async () => {}" t.startLine t.endLine]
    "test(...)" t.startLine t.endLine

/-- The tree of one describe call: `test.describe(<string>, <callback>)`
whose callback body holds the given test calls. -/
def describeCallOf (raw : String) (tests : List TestItem) (sl el : Nat) : Expr :=
  .call (.plain "test.describe")
    [.strLit raw sl sl, .other (tests.map testCallOf) "() => {}" sl el]
    "test.describe(...)" sl el

def buildItem : SpecItem → Expr
  | .suite raw tests sl el =>
    .exprStmt (describeCallOf raw tests sl el) "test.describe(...);" sl el
  | .bare t => .exprStmt (testCallOf t) "test(...);" t.startLine t.endLine

/-- The call expressions (with context) one built item contributes. -/
def itemCalls : SpecItem → List (Expr × List String × Bool)
  | .suite raw tests sl el =>
    (describeCallOf raw tests sl el, [], true) ::
      tests.map (fun t => (testCallOf t, ["test.describe"], false))
  | .bare t => [(testCallOf t, [], true)]

def buildSpecFile (items : List SpecItem) : SpecStmts :=
  ⟨items.map buildItem⟩

/-- The test chunk a built test call should yield. -/
def expectedTestChunk (suite : Option String) (t : TestItem) : Chunk :=
  { name := extractStringValue t.raw, type := "test", testSuiteName := suite,
    startLine := t.startLine, endLine := t.endLine }

/-- The grouped chunks the built file should yield: suites in file order,
each suite's tests in order. -/
def expectedGrouped (items : List SpecItem) : List Chunk :=
  items.flatMap (fun it =>
    match it with
    | .suite raw tests _ _ =>
      tests.map (expectedTestChunk (some (extractStringValue raw)))
    | .bare _ => [])

/-- The standalone chunks the built file should yield, in file order. -/
def expectedStandalone (items : List SpecItem) : List Chunk :=
  items.flatMap (fun it =>
    match it with
    | .suite _ _ _ _ => []
    | .bare t => [expectedTestChunk none t])

/-- No test of the built file carries a lifecycle-hook name. -/
def NoHookItems (items : List SpecItem) : Prop :=
  ∀ it ∈ items,
    match it with
    | SpecItem.suite _ tests _ _ =>
      ∀ t ∈ tests, isHookName (extractStringValue t.raw) = false
    | SpecItem.bare t => isHookName (extractStringValue t.raw) = false

/-- Number of test calls among the items. -/
def itemTestCount (items : List SpecItem) : Nat :=
  (items.map (fun it =>
    match it with
    | SpecItem.suite _ tests _ _ => tests.length
    | SpecItem.bare _ => 1)).sum

/-! ### Concrete instances used by counterexamples and witnesses -/

/-- A page-object class whose single method `run` has a body containing
`expect` but a name containing no classified vocabulary. -/
def clsRunExpect : ClassDecl :=
  { name := some "LoginPage", props := [], ctor := none,
    methods := [⟨"run", "async run() { expect(x).toBe(1); }", 2, 4⟩],
    startLine := 1, endLine := 5 }

def fileRunExpect : FileModel := ⟨"login.page.ts", [], [clsRunExpect], [], []⟩

/-- Class `A`: one method and nothing else. -/
def clsOnlyMethod : ClassDecl :=
  { name := some "A", props := [], ctor := none,
    methods := [⟨"m", "m() { return 1; }", 2, 2⟩], startLine := 1, endLine := 3 }

/-- Class `B`: a constructor and nothing extractable. -/
def clsOnlyCtor : ClassDecl :=
  { name := some "B", props := [], ctor := some ⟨"", 6⟩, methods := [],
    startLine := 5, endLine := 7 }

def fileTwoClasses : FileModel := ⟨"pages.ts", [], [clsOnlyMethod, clsOnlyCtor], [], []⟩

/-- A class whose `Locator`-typed property is initialized through a helper
call whose text contains neither `page.locator` nor `page.getBy`. -/
def clsLocNoMarker : ClassDecl :=
  { name := some "X",
    props := [⟨"x", "Locator", none, 3, 3⟩],
    ctor := some ⟨"this.x = makeLoc();", 4⟩,
    methods := [], startLine := 1, endLine := 6 }

def fileLocNoMarker : FileModel := ⟨"x.page.ts", [], [clsLocNoMarker], [], []⟩

/-- A file whose only class is `B` (constructor, nothing extractable). -/
def fileOnlyCtor : FileModel := ⟨"b.page.ts", [], [clsOnlyCtor], [], []⟩

/-- A generic-profile file with an unnamed default-exported function
declaration and an arrow function bound to the declarator `fn`. -/
def fileGenericWitness : FileModel :=
  ⟨"util.ts", [], [], [⟨none, 1, 2⟩],
   [⟨false, [⟨"fn", some InitKind.arrowK, 3, 3⟩]⟩]⟩

/-- Items of a spec file whose standalone test comes FIRST in source
order, before the describe block. -/
def itemsStandaloneFirst : List SpecItem :=
  [SpecItem.bare ⟨"\x27alpha\x27", 1, 2⟩,
   SpecItem.suite "\x27S\x27" [⟨"\x27beta\x27", 4, 5⟩] 3 6]

/-- A spec file with one describe nested inside another, the inner one
holding a single test `t`. -/
def nestedTestCall : Expr :=
  .call (.plain "test") [.strLit "'t'" 3 3, .other [] "async () => {}" 3 5]
    "test('t', ...)" 3 5

def innerDescribe : Expr :=
  .call (.plain "test.describe")
    [.strLit "'S2'" 2 2, .other [nestedTestCall] "() => {}" 2 6]
    "test.describe('S2', ...)" 2 6

def outerDescribe : Expr :=
  .call (.plain "test.describe")
    [.strLit "'S1'" 1 1,
     .other [.exprStmt innerDescribe "inner;" 2 6] "() => {}" 1 7]
    "test.describe('S1', ...)" 1 7

def specNestedDescribes : SpecStmts := ⟨[.exprStmt outerDescribe "outer;" 1 7]⟩

/-- A spec file whose single test call's first argument is the empty
string literal. -/
def specEmptyTitle : SpecStmts :=
  ⟨[.exprStmt
      (.call (.plain "test") [.strLit "''" 1 1, .other [] "async () => {}" 1 2]
        "test('', ...)" 1 2)
      "test('', ...);" 1 2]⟩

/-- A class with two `Locator`-typed properties assigned once each in the
constructor. -/
def clsTwoLocators : ClassDecl :=
  { name := some "P",
    props := [⟨"a", "Locator", none, 2, 2⟩, ⟨"b", "Locator", none, 3, 3⟩],
    ctor := some ⟨"\n    this.a = page.locator(\x27#a\x27);\n    this.b = page.locator(\x27#b\x27);\n  ", 4⟩,
    methods := [], startLine := 1, endLine := 8 }

/-- The decomposition data of `clsTwoLocators`'s constructor body around
the assignment to each property. -/
def preTwoLoc (p : PropDecl) : List Char :=
  if p.name = "a" then "\n    ".data
  else "\n    this.a = page.locator(\x27#a\x27);\n    ".data

def wsTwoLoc (_ : PropDecl) : List Char := [' ']

def exprTwoLoc (p : PropDecl) : List Char :=
  if p.name = "a" then " page.locator(\x27#a\x27)".data
  else " page.locator(\x27#b\x27)".data

def postTwoLoc (p : PropDecl) : List Char :=
  if p.name = "a" then "\n    this.b = page.locator(\x27#b\x27);\n  ".data
  else "\n  ".data

/-! ### The shape of a well-formed constructor assignment (for the
locator line-offset theorem) -/

/-- The text of one assignment statement `this.<name><ws>=<expr>;`. -/
def locAssignText (name ws expr : List Char) : List Char :=
  thisDot name ++ ws ++ '=' :: (expr ++ [';'])

/-- The constructor body contains, at offset `pre.length`, exactly one
assignment of the form `this.<name><ws>=<expr>;` for `name`: it decomposes
around that assignment, and the locator regex for `name` matches at no
other offset. -/
structure LocAssignShape (body : List Char) (name : String)
    (pre ws expr post : List Char) : Prop where
  split : body = pre ++ locAssignText name.data ws expr ++ post
  wsOnly : ws.all isWsChar = true
  exprNe : expr ≠ []
  exprNoSemi : expr.all (· != ';') = true
  uniq : ∀ j < body.length, j ≠ pre.length →
    matchLocAt name.data (body.drop j) = none

/-- The locator chunks the C4 theorem predicts for `clsTwoLocators`. -/
def twoLocatorsExpected : List Chunk :=
  (clsTwoLocators.props.filter (fun p => jsIncludes p.typeText "Locator")).map
    (fun p =>
      { name := p.name, type := "locator", className := some "P",
        startLine := 4 + countNl (preTwoLoc p),
        endLine := 4 + countNl (preTwoLoc p) +
          countNl (locAssignText p.name.data (wsTwoLoc p) (exprTwoLoc p)) })

/-- The constructor body of a class, empty when it has no constructor. -/
def ctorBodyOf (cls : ClassDecl) : List Char :=
  match cls.ctor with
  | some c => c.bodyText.data
  | none => []

/-- A class whose `Locator`-typed property is initialized with a
`page.locator(...)` call and whose plain property `url` is initialized
with a string — the well-behaved situation of the amended C5 theorem. -/
def clsLocMarkerOk : ClassDecl :=
  { name := some "W",
    props := [⟨"x", "Locator", none, 2, 2⟩, ⟨"url", "string", none, 3, 3⟩],
    ctor := some ⟨"this.x = page.locator(\x27#x\x27);\nthis.url = \x27https://a\x27;", 4⟩,
    methods := [], startLine := 1, endLine := 7 }

/-! ### Classification signals (the exact vocabulary split of
`determineChunkType`) -/

/-- The content the classifier scans for a class's merged methods chunk:
`code || ''` — the joined method texts only when `includeCode` is set. -/
def scannedContent (includeCode : Bool) (cls : ClassDecl) : String :=
  if includeCode then String.intercalate "\n\n" (cls.methods.map (·.text)) else ""

/-- The joined method names the classifier scans. -/
def joinedNames (cls : ClassDecl) : String :=
  String.intercalate " " (cls.methods.map (·.name))

/-- The assertion signal: `expect`/`assert` in the content,
`verify`/`check`/`should`/`assert` in the joined names. -/
def assertSignal (content names : String) : Bool :=
  jsIncludes (jsLower content) "expect" || jsIncludes (jsLower content) "assert" ||
  jsIncludes (jsLower names) "verify" || jsIncludes (jsLower names) "check" ||
  jsIncludes (jsLower names) "should" || jsIncludes (jsLower names) "assert"

/-- The action signal: `click`/`fill`/`goto`/`.selectoption` in the
content, `click`/`navigate`/`select`/`type`/`submit`/`open`/`close`/
`drag`/`drop` in the joined names. -/
def actionSignal (content names : String) : Bool :=
  jsIncludes (jsLower content) "click" || jsIncludes (jsLower content) "fill" ||
  jsIncludes (jsLower content) "goto" || jsIncludes (jsLower content) ".selectoption" ||
  jsIncludes (jsLower names) "click" || jsIncludes (jsLower names) "navigate" ||
  jsIncludes (jsLower names) "select" || jsIncludes (jsLower names) "type" ||
  jsIncludes (jsLower names) "submit" || jsIncludes (jsLower names) "open" ||
  jsIncludes (jsLower names) "close" || jsIncludes (jsLower names) "drag" ||
  jsIncludes (jsLower names) "drop"

/-! ### Well-formedness of the parsed views (for the chunk invariant)

ts-morph guarantees that every node's end line is at least its start line,
and the TypeScript grammar guarantees that binding identifiers (variable
declarators, object-literal property names, property declarations) are
nonempty tokens.  The predicates below state exactly these facts about the
modelled views; nothing else about the input is assumed. -/

mutual

def wfE : Expr → Bool
  | .call _ args _ sl el => Nat.ble sl el && wfEL args
  | .strLit _ sl el => Nat.ble sl el
  | .objLit props _ sl el => Nat.ble sl el && wfEP props
  | .exprStmt inner _ sl el => Nat.ble sl el && wfE inner
  | .other children _ sl el => Nat.ble sl el && wfEL children

def wfEL : List Expr → Bool
  | [] => true
  | e :: es => wfE e && wfEL es

def wfEP : List (String × Expr × Nat × Nat) → Bool
  | [] => true
  | p :: ps => !(p.1 == "") && Nat.ble p.2.2.1 p.2.2.2 && wfE p.2.1 && wfEP ps

end

def wfProp (p : PropDecl) : Bool :=
  !(p.name == "") && Nat.ble p.startLine p.endLine

def wfMethod (m : MethodDecl) : Bool := Nat.ble m.startLine m.endLine

/-- A well-formed class: ordered spans, nonempty property names, and the
first method starting no later than the last method ends (ts-morph returns
`getMethods()` in source order). -/
def wfClass (cls : ClassDecl) : Bool :=
  Nat.ble cls.startLine cls.endLine && cls.props.all wfProp &&
  cls.methods.all wfMethod &&
  (match cls.methods with
   | [] => true
   | m0 :: rest =>
     Nat.ble m0.startLine (((m0 :: rest).getLast (List.cons_ne_nil m0 rest)).endLine))

def wfFunc (fd : FuncDecl) : Bool := Nat.ble fd.startLine fd.endLine

def wfVar (v : VarDecl) : Bool := !(v.name == "") && Nat.ble v.startLine v.endLine

def wfVarStatement (vs : VarStatement) : Bool := vs.decls.all wfVar

/-- A well-formed file model: every modelled node has an ordered line span
and every binding identifier is a nonempty token. -/
abbrev WFFile (f : FileModel) : Prop :=
  wfEL f.stmts = true ∧ f.classes.all wfClass = true ∧
  f.functions.all wfFunc = true ∧ f.varStatements.all wfVarStatement = true

/-- The amended chunk invariant: the kind comes from the closed
enumeration, the span is ordered, and an empty name occurs only on `test`
and `setup` chunks (whose names quote a string argument verbatim). -/
abbrev chunkInv (c : Chunk) : Prop :=
  c.type ∈ chunkKinds ∧ c.startLine ≤ c.endLine ∧
  (c.name = "" → c.type = "test" ∨ c.type = "setup")

/-- A one-function file for the chunk-invariant witness. -/
def fileInvWitness : FileModel :=
  ⟨"mk.ts", [], [], [⟨some "makeUser", 1, 3⟩], []⟩

/-! ## Theorems -/

/-! ### Relationship-graph lemmas -/

theorem relGet_relAdd (m : RelMap) (k v k' : String) :
    relGet (relAdd m k v) k' =
      if k' = k then
        some (if ((relGet m k).getD []).contains v then (relGet m k).getD []
              else (relGet m k).getD [] ++ [v])
      else relGet m k' := by
  induction m with
  | nil =>
    by_cases h : k' = k
    · subst h; simp [relAdd, relGet]
    · simp [relAdd, relGet, h, Ne.symm h]
  | cons e rest ih =>
    obtain ⟨k'', vs⟩ := e
    by_cases h1 : k'' = k
    · subst h1
      by_cases h2 : k' = k''
      · subst h2; simp [relAdd, relGet]
      · simp [relAdd, relGet, h2, Ne.symm h2]
    · by_cases h2 : k' = k''
      · subst h2
        simp [relAdd, relGet, h1, Ne.symm h1]
      · simp [relAdd, relGet, h1, h2, Ne.symm h2, ih]

theorem relMem_relAdd (m : RelMap) (k v k' v' : String) :
    relMem (relAdd m k v) k' v' ↔ (k' = k ∧ v' = v) ∨ relMem m k' v' := by
  by_cases h : k' = k
  · subst h
    unfold relMem
    rw [relGet_relAdd, if_pos rfl]
    by_cases h3 : ((relGet m k').getD []).contains v = true
    · rw [if_pos h3]
      simp only [Option.getD_some]
      constructor
      · intro hm; exact Or.inr hm
      · rintro (⟨-, rfl⟩ | hm)
        · exact List.elem_iff.mp h3
        · exact hm
    · rw [if_neg h3]
      simp only [Option.getD_some, List.mem_append, List.mem_singleton]
      constructor
      · rintro (hm | rfl)
        · exact Or.inr hm
        · exact Or.inl ⟨by trivial, rfl⟩
      · rintro (⟨-, rfl⟩ | hm)
        · exact Or.inr rfl
        · exact Or.inl hm
  · unfold relMem
    rw [relGet_relAdd, if_neg h]
    simp [h]

theorem symmetric_addRelation (st : ParserState) (c t : String)
    (h : SymmetricGraph st) : SymmetricGraph (addRelation st c t) := by
  intro c' t'
  simp only [addRelation, relMem_relAdd]
  constructor
  · rintro (⟨rfl, rfl⟩ | hm)
    · exact Or.inl ⟨rfl, rfl⟩
    · exact Or.inr ((h c' t').mp hm)
  · rintro (⟨rfl, rfl⟩ | hm)
    · exact Or.inl ⟨rfl, rfl⟩
    · exact Or.inr ((h c' t').mpr hm)

theorem symmetric_analyzeImportsForFile (st : ParserState) (p : String)
    (imports : List ImportDecl) (h : SymmetricGraph st) :
    SymmetricGraph (analyzeImportsForFile st p imports) := by
  unfold analyzeImportsForFile
  generalize getRelativePath st.rootDir p = rel
  induction imports generalizing st with
  | nil => exact h
  | cons imp rest ih =>
    simp only [List.foldl_cons]
    apply ih
    by_cases hc : (jsIncludes imp.moduleSpecifier "page-objects" ||
        jsIncludes imp.moduleSpecifier "page-object") = true
    · simp only [hc, if_pos]
      clear hc
      induction imp.namedImports generalizing st with
      | nil => exact h
      | cons cn rest2 ih2 =>
        simp only [List.foldl_cons]
        exact ih2 _ (symmetric_addRelation _ _ _ h)
    · simp only [hc]
      simpa using h

theorem symmetric_rootDir_set (st : ParserState) (rd : String)
    (h : SymmetricGraph st) : SymmetricGraph { st with rootDir := rd } := h

theorem symmetric_analyzeImportsStep (st : ParserState)
    (tf : String × Option (List ImportDecl)) (h : SymmetricGraph st) :
    SymmetricGraph (analyzeImportsStep st tf) := by
  unfold analyzeImportsStep
  match tf.2 with
  | some imps => exact symmetric_analyzeImportsForFile _ _ _ h
  | none => exact h

theorem symmetric_analyzeImports (st : ParserState) (rd : String)
    (tfs : List (String × Option (List ImportDecl))) (h : SymmetricGraph st) :
    SymmetricGraph (analyzeImports st rd tfs) := by
  unfold analyzeImports
  have h' : SymmetricGraph { st with rootDir := rd } := h
  generalize { st with rootDir := rd } = st' at h' ⊢
  induction tfs generalizing st' with
  | nil => exact h'
  | cons tf rest ih =>
    simp only [List.foldl_cons]
    exact ih _ (symmetric_analyzeImportsStep _ _ h')

theorem symmetric_parseFileState (st : ParserState) (fp : String)
    (h : SymmetricGraph st) : SymmetricGraph (parseFileState st fp) := by
  unfold parseFileState
  split <;> exact h

theorem symmetric_runOp (st : ParserState) (op : POp)
    (h : SymmetricGraph st) : SymmetricGraph (runOp st op) := by
  cases op with
  | analyze rd tfs => exact symmetric_analyzeImports st rd tfs h
  | parse fp => exact symmetric_parseFileState st fp h

theorem symmetric_initial : SymmetricGraph {} := by
  intro c t
  simp [relMem, relGet, List.find?]

/-- C8: the relationship graph stays symmetric across every run of
analyzer and extraction operations — every edge recorded by
`analyzeImportsForFile` appears in both maps — and the state effect of
`parseFile` leaves both relationship maps untouched. -/
theorem relationship_graph_symmetric_and_readonly :
    (∀ ops : List POp, SymmetricGraph (runOps ops)) ∧
    (∀ (st : ParserState) (fp : String),
      (parseFileState st fp).pageObjectToTests = st.pageObjectToTests ∧
      (parseFileState st fp).testToPageObjects = st.testToPageObjects) := by
  constructor
  · intro ops
    unfold runOps
    have h0 : SymmetricGraph ({} : ParserState) := symmetric_initial
    generalize ({} : ParserState) = st at h0 ⊢
    induction ops generalizing st with
    | nil => exact h0
    | cons op rest ih =>
      simp only [List.foldl_cons]
      exact ih _ (symmetric_runOp _ _ h0)
  · intro st fp
    unfold parseFileState
    split <;> exact ⟨rfl, rfl⟩

/-- C9: a failed read of a single test file leaves the fold state
untouched, so analysis of the remaining files proceeds and the resulting
state is the one obtained from exactly the successfully analyzed files. -/
theorem analyzeImports_resilient_to_failures (st : ParserState) (rd : String)
    (tfs : List (String × Option (List ImportDecl))) :
    analyzeImports st rd tfs =
      analyzeImports st rd (tfs.filter (fun tf => tf.2.isSome)) := by
  unfold analyzeImports
  generalize { st with rootDir := rd } = st'
  induction tfs generalizing st' with
  | nil => rfl
  | cons tf rest ih =>
    obtain ⟨p, outcome⟩ := tf
    match outcome with
    | some imps =>
      rw [List.foldl_cons, List.filter_cons, if_pos (by simp), List.foldl_cons]
      exact ih _
    | none =>
      have hstep : analyzeImportsStep st' (p, none) = st' := rfl
      rw [List.foldl_cons, hstep, List.filter_cons, if_neg (by simp)]
      exact ih _

/-! ### Counterexamples -/

/-- C1 counterexample: in a file declaring class `A` (one method, no
constructor) followed by class `B` (a constructor, nothing extractable),
class `B` has a constructor yet yields no chunk at all — the fallback
test reads the length of the file-wide accumulated list, which class `A`
already made nonempty. -/
theorem fallback_chunk_not_per_class_cex :
    (extractPlaywrightPOMChunks false fileTwoClasses).map
        (fun c => (c.name, c.className)) = [("A_actions", some "A")] ∧
    fileTwoClasses.classes.map (fun c => c.ctor.isSome) = [false, true] := by
  constructor <;> decide

/-- C2 counterexample: with `test.describe('S1', …)` wrapping
`test.describe('S2', …)` wrapping a single `test('t', …)`, the grouped
scan emits the one test twice — once per enclosing describe — so a
test-case call is not emitted exactly once under nested grouping. -/
theorem nested_describe_double_emission_cex :
    (extractPlaywrightSpecChunks specNestedDescribes).map
        (fun c => (c.name, c.testSuiteName)) =
      [("t", some "S1"), ("t", some "S2")] := by
  decide

/-- C5 counterexample: property `x : Locator` initialized in the
constructor by `this.x = makeLoc();` is emitted both as a `locator` chunk
and as a `helper` chunk — the simple-property scan's processed-name set
never learns which names locator extraction claimed, and the textual
`page.locator`/`page.getBy` filter does not fire on this value. -/
theorem locator_helper_duplicate_cex :
    (extractPlaywrightPOMChunks false fileLocNoMarker).map
        (fun c => (c.name, c.type)) = [("x", "locator"), ("x", "helper")] := by
  decide

/-- C6 counterexample: the same class (single method `run` whose body
contains `expect`) is classified `assert` when source code is included but
`helper` when it is not — the classifier receives `code || ''`, so method
bodies are scanned only when the include-source-code flag is set. -/
theorem include_code_changes_kind_cex :
    (extractPlaywrightPOMChunks true fileRunExpect).map (fun c => c.type) =
        ["assert"] ∧
    (extractPlaywrightPOMChunks false fileRunExpect).map (fun c => c.type) =
        ["helper"] := by
  constructor <;> decide

/-- C7 counterexample: `test('', …)` yields a chunk whose `name` is the
empty string — `extractStringValue` maps `''` to the empty string and the
spec extractor uses it unguarded. -/
theorem empty_chunk_name_cex :
    (extractPlaywrightSpecChunks specEmptyTitle).map (fun c => (c.name, c.type)) =
      [("", "test")] := by
  decide

/-! ### POM fold membership -/

theorem determineChunkType_signals (ns : List String) (content : String) :
    determineChunkType ns content =
      (if assertSignal content (String.intercalate " " ns) then "assert"
       else if actionSignal content (String.intercalate " " ns) then "action"
       else "helper") := by
  unfold determineChunkType assertSignal actionSignal
  rfl

theorem mem_pomClassStep (ic : Bool) (acc : List Chunk) (cls : ClassDecl)
    (c : Chunk) (hc : c ∈ acc ∨ c ∈ perClassChunks ic cls) :
    c ∈ pomClassStep ic acc cls := by
  unfold pomClassStep
  by_cases h : (acc ++ perClassChunks ic cls).length == 0
  · exfalso
    have h0 : acc ++ perClassChunks ic cls = [] :=
      List.eq_nil_of_length_eq_zero (by simpa using h)
    rcases List.append_eq_nil.mp h0 with ⟨ha, hp⟩
    cases hc with
    | inl hm => rw [ha] at hm; exact absurd hm (List.not_mem_nil c)
    | inr hm => rw [hp] at hm; exact absurd hm (List.not_mem_nil c)
  · simp only [h, Bool.false_eq_true, if_false, List.mem_append]
    exact hc

theorem mem_pom_foldl_of_mem_acc (ic : Bool) (classes : List ClassDecl)
    (acc : List Chunk) (c : Chunk) (hc : c ∈ acc) :
    c ∈ classes.foldl (pomClassStep ic) acc := by
  induction classes generalizing acc with
  | nil => exact hc
  | cons cls rest ih =>
    exact ih _ (mem_pomClassStep ic acc cls c (Or.inl hc))

theorem mem_pom_foldl (ic : Bool) (classes : List ClassDecl) (cls : ClassDecl)
    (hm : cls ∈ classes) (c : Chunk) (hc : c ∈ perClassChunks ic cls)
    (acc : List Chunk) : c ∈ classes.foldl (pomClassStep ic) acc := by
  induction classes generalizing acc with
  | nil => exact absurd hm (List.not_mem_nil cls)
  | cons cls' rest ih =>
    rcases List.mem_cons.mp hm with rfl | hm'
    · exact mem_pom_foldl_of_mem_acc ic rest _ c
        (mem_pomClassStep ic acc cls c (Or.inr hc))
    · exact ih hm' _

theorem mem_extractPOM (ic : Bool) (f : FileModel) (cls : ClassDecl)
    (hm : cls ∈ f.classes) (c : Chunk) (hc : c ∈ perClassChunks ic cls) :
    c ∈ extractPlaywrightPOMChunks ic f := by
  unfold extractPlaywrightPOMChunks
  have hne : f.classes.isEmpty = false := by
    cases hcl : f.classes with
    | nil => rw [hcl] at hm; exact absurd hm (List.not_mem_nil cls)
    | cons a b => rfl
  rw [if_neg (by simp [hne])]
  exact mem_pom_foldl ic f.classes cls hm c hc []

/-- C6 (amended): for every class with at least one method, a single
`<ClassName>_actions` chunk spanning from the first to the last method is
emitted into the file's chunk list; its kind is computed by
`determineChunkType` from the method names and from `code || ''` — the
method bodies are scanned only when the include-source-code flag is set —
with `assert` when the assertion signal fires (`expect`/`assert` in the
scanned content, `verify`/`check`/`should`/`assert` in the names), else
`action` when the action signal fires (`click`/`fill`/`goto`/
`.selectoption` in the scanned content, `click`/`navigate`/`select`/
`type`/`submit`/`open`/`close`/`drag`/`drop` in the names), else
`helper`; `assert` always wins over `action`. -/
theorem methods_chunk_classification (ic : Bool) (f : FileModel)
    (cls : ClassDecl) (m0 : MethodDecl) (rest : List MethodDecl)
    (hms : cls.methods = m0 :: rest) (hm : cls ∈ f.classes) :
    ∃ ch : Chunk,
      methodsChunk ic (jsOrElse cls.name "<anonymous>") cls = some ch ∧
      ch ∈ extractPlaywrightPOMChunks ic f ∧
      ch.name = jsOrElse cls.name "<anonymous>" ++ "_actions" ∧
      ch.startLine = m0.startLine ∧
      ch.endLine = ((m0 :: rest).getLast (List.cons_ne_nil m0 rest)).endLine ∧
      ch.type = determineChunkType (cls.methods.map (·.name)) (scannedContent ic cls) ∧
      (assertSignal (scannedContent ic cls) (joinedNames cls) = true →
        ch.type = "assert") ∧
      (assertSignal (scannedContent ic cls) (joinedNames cls) = false →
        actionSignal (scannedContent ic cls) (joinedNames cls) = true →
        ch.type = "action") ∧
      (assertSignal (scannedContent ic cls) (joinedNames cls) = false →
        actionSignal (scannedContent ic cls) (joinedNames cls) = false →
        ch.type = "helper") := by
  have hch : methodsChunk ic (jsOrElse cls.name "<anonymous>") cls =
      some { name := jsOrElse cls.name "<anonymous>" ++ "_actions",
             type := determineChunkType ((m0 :: rest).map (·.name))
               (if ic then String.intercalate "\n\n" ((m0 :: rest).map (·.text)) else ""),
             className := some (jsOrElse cls.name "<anonymous>"),
             startLine := m0.startLine,
             endLine := ((m0 :: rest).getLast (List.cons_ne_nil m0 rest)).endLine } := by
    unfold methodsChunk
    rw [hms]
  have hcontent : scannedContent ic cls =
      (if ic then String.intercalate "\n\n" ((m0 :: rest).map (·.text)) else "") := by
    simp only [scannedContent, hms]
  refine ⟨_, hch, ?_, rfl, rfl, rfl, ?_, ?_, ?_, ?_⟩
  · apply mem_extractPOM ic f cls hm
    unfold perClassChunks
    rw [hch]
    simp
  · rw [hms, hcontent]
  · intro hsig
    simp only [determineChunkType_signals, hcontent, joinedNames, hms,
      List.map_cons] at hsig ⊢
    rw [if_pos hsig]
  · intro hsig1 hsig2
    simp only [determineChunkType_signals, hcontent, joinedNames, hms,
      List.map_cons] at hsig1 hsig2 ⊢
    rw [if_neg (by simp [hsig1]), if_pos hsig2]
  · intro hsig1 hsig2
    simp only [determineChunkType_signals, hcontent, joinedNames, hms,
      List.map_cons] at hsig1 hsig2 ⊢
    rw [if_neg (by simp [hsig1]), if_neg (by simp [hsig2])]

/-- Witness for the amended C6 theorem at the concrete class
`clsRunExpect` inside `fileRunExpect` with the include-source-code flag
set: the hypotheses hold and the emitted chunk type is `assert`. -/
theorem methods_chunk_classification_witness :
    clsRunExpect.methods = [⟨"run", "async run() { expect(x).toBe(1); }", 2, 4⟩] ∧
    clsRunExpect ∈ fileRunExpect.classes ∧
    ({ name := "LoginPage_actions", type := "assert",
       className := some "LoginPage", startLine := 2, endLine := 4 } : Chunk) ∈
      extractPlaywrightPOMChunks true fileRunExpect := by
  have h1 : clsRunExpect.methods =
      [⟨"run", "async run() { expect(x).toBe(1); }", 2, 4⟩] := rfl
  have h2 : clsRunExpect ∈ fileRunExpect.classes := by
    simp [fileRunExpect]
  obtain ⟨ch, hc1, hc2, -, -, -, -, -, -, -⟩ :=
    methods_chunk_classification true fileRunExpect clsRunExpect _ [] h1 h2
  have hch : ch = ({ name := "LoginPage_actions", type := "assert",
                     className := some "LoginPage", startLine := 2,
                     endLine := 4 } : Chunk) := by
    have hv : methodsChunk true (jsOrElse clsRunExpect.name "<anonymous>") clsRunExpect =
        some { name := "LoginPage_actions", type := "assert",
               className := some "LoginPage", startLine := 2, endLine := 4 } := by
      decide
    rw [hv] at hc1
    exact (Option.some.inj hc1).symm
  exact ⟨h1, h2, hch ▸ hc2⟩

/-! ### The fallback class chunk (C1) -/

theorem pom_foldl_of_ne_nil (ic : Bool) (rest : List ClassDecl)
    (acc : List Chunk) (hacc : acc ≠ [])
    (hempty : ∀ cls ∈ rest, perClassChunks ic cls = []) :
    rest.foldl (pomClassStep ic) acc = acc := by
  induction rest generalizing acc with
  | nil => rfl
  | cons c cs ih =>
    have hc := hempty c (by simp)
    have hstep : pomClassStep ic acc c = acc := by
      unfold pomClassStep
      rw [hc, List.append_nil, if_neg (by simp [hacc])]
    rw [List.foldl_cons, hstep]
    exact ih acc hacc (fun cls h => hempty cls (by simp [h]))

theorem pom_foldl_all_empty (ic : Bool) (classes : List ClassDecl)
    (hempty : ∀ cls ∈ classes, perClassChunks ic cls = []) :
    classes.foldl (pomClassStep ic) [] =
      ((classes.find? (fun cls => cls.ctor.isSome)).map
        (fun cls => fallbackClassChunk (jsOrElse cls.name "<anonymous>") cls)).toList := by
  induction classes with
  | nil => rfl
  | cons c cs ih =>
    have hc := hempty c (by simp)
    rw [List.foldl_cons]
    cases hctor : c.ctor with
    | some ctor =>
      have hstep : pomClassStep ic [] c =
          [fallbackClassChunk (jsOrElse c.name "<anonymous>") c] := by
        unfold pomClassStep
        rw [hc, hctor]
        rfl
      rw [hstep, pom_foldl_of_ne_nil ic cs _ (by simp)
        (fun cls h => hempty cls (by simp [h]))]
      rw [List.find?_cons_of_pos _ (by simp [hctor])]
      rfl
    | none =>
      have hstep : pomClassStep ic [] c = [] := by
        unfold pomClassStep
        rw [hc, hctor]
        rfl
      rw [hstep, ih (fun cls h => hempty cls (by simp [h]))]
      rw [List.find?_cons_of_neg _ (by simp [hctor])]

/-- C1 (amended): the fallback test reads the length of the file-wide
accumulated chunk list, not a per-class list.  Consequently, in a file
whose classes all yield zero chunks from locator, simple-property and
method extraction, exactly the first class that has a constructor receives
a fallback `<ClassName>_class` chunk (and nothing else is emitted); as the
counterexample shows, once any class has produced a chunk no later class
receives a fallback, so a class with a constructor need not yield a chunk. -/
theorem fallback_chunk_first_ctor_class (ic : Bool) (f : FileModel)
    (hne : f.classes ≠ [])
    (hempty : ∀ cls ∈ f.classes, perClassChunks ic cls = []) :
    extractPlaywrightPOMChunks ic f =
      ((f.classes.find? (fun cls => cls.ctor.isSome)).map
        (fun cls => fallbackClassChunk (jsOrElse cls.name "<anonymous>") cls)).toList := by
  unfold extractPlaywrightPOMChunks
  rw [if_neg (by simp [hne])]
  exact pom_foldl_all_empty ic f.classes hempty

/-- Witness for the amended C1 theorem at the concrete one-class file
`fileOnlyCtor`: the hypotheses hold and the output is the fallback chunk
of its single (constructor-bearing) class. -/
theorem fallback_chunk_first_ctor_class_witness :
    fileOnlyCtor.classes ≠ [] ∧ perClassChunks false clsOnlyCtor = [] ∧
    extractPlaywrightPOMChunks false fileOnlyCtor =
      ((fileOnlyCtor.classes.find? (fun cls => cls.ctor.isSome)).map
        (fun cls => fallbackClassChunk (jsOrElse cls.name "<anonymous>") cls)).toList := by
  have h1 : fileOnlyCtor.classes ≠ [] := by decide
  have h2 : ∀ cls ∈ fileOnlyCtor.classes, perClassChunks false cls = [] := by decide
  exact ⟨h1, h2 clsOnlyCtor (by decide),
    fallback_chunk_first_ctor_class false fileOnlyCtor h1 h2⟩

/-! ### Generic-profile name resolution (C3) -/

theorem genericSrc_map_fst (f : FileModel) :
    (extractGenericChunksSrc f).map Prod.fst = extractGenericChunks f := by
  unfold extractGenericChunksSrc extractGenericChunks
  simp only [List.map_append]
  congr 1
  congr 1
  · rw [List.map_map]
    rfl
  · rw [List.map_flatMap]
    congr 1
    funext cls
    simp only [List.map_cons, List.map_map]
    rfl
  · rw [List.map_filterMap]
    congr 1
    funext v
    by_cases h : v.initKind == some InitKind.arrowK <;> simp [h]

/-- C3: for every chunk the generic profile emits from an anonymous
function or class node, the name equals the one bound by the node's
nearest enclosing binding when one exists (the variable declarator of a
directly-bound arrow function; top-level declarations and class members
have no enclosing declarator or object-literal-property binding), and the
`<anonymous>` sentinel is used exactly when no such binding exists. -/
theorem generic_anonymous_name_resolution (f : FileModel) :
    ((extractGenericChunksSrc f).map Prod.fst = extractGenericChunks f) ∧
    ∀ p ∈ extractGenericChunksSrc f, p.2.isAnonNode = true →
      p.1.name = p.2.nearestBindingName.getD "<anonymous>" := by
  refine ⟨genericSrc_map_fst f, ?_⟩
  intro p hp hanon
  unfold extractGenericChunksSrc at hp
  rcases List.mem_append.mp hp with hp1 | hp3
  · rcases List.mem_append.mp hp1 with hp1 | hp2
    · obtain ⟨fd, -, rfl⟩ := List.mem_map.mp hp1
      simp only [GSrc.isAnonNode] at hanon
      simp only [GSrc.nearestBindingName, Option.getD_none]
      rcases Bool.or_eq_true_iff.mp hanon with h | h
      · have : fd.name = none := by
          cases hn : fd.name <;> simp [hn] at h ⊢
        simp [jsOrElse, this]
      · have : fd.name = some "" := by
          cases hn : fd.name <;> simp [hn] at h ⊢
          exact h
        simp [jsOrElse, this]
    · obtain ⟨cls, -, hmem⟩ := List.mem_flatMap.mp hp2
      rcases List.mem_cons.mp hmem with rfl | hmeth
      · simp only [GSrc.isAnonNode] at hanon
        simp only [GSrc.nearestBindingName, Option.getD_none]
        rcases Bool.or_eq_true_iff.mp hanon with h | h
        · have : cls.name = none := by
            cases hn : cls.name <;> simp [hn] at h ⊢
          simp [jsOrElse, this]
        · have : cls.name = some "" := by
            cases hn : cls.name <;> simp [hn] at h ⊢
            exact h
          simp [jsOrElse, this]
      · obtain ⟨m, -, rfl⟩ := List.mem_map.mp hmeth
        simp only [GSrc.isAnonNode] at hanon
        simp only [GSrc.nearestBindingName, Option.getD_none]
        have : m.name = "" := by simpa using hanon
        simp [jsOrElse, this]
  · obtain ⟨v, -, hv⟩ := List.mem_filterMap.mp hp3
    by_cases h : v.initKind == some InitKind.arrowK
    · rw [if_pos h] at hv
      cases hv
      simp [GSrc.nearestBindingName]
    · rw [if_neg h] at hv
      cases hv

/-- Witness for C3 at a concrete file: an arrow function bound to `fn`
and an unnamed default-exported function. -/
theorem generic_anonymous_name_resolution_witness :
    (({ name := "fn", type := "arrow_function", startLine := 3, endLine := 3 },
       GSrc.fromVar ⟨"fn", some InitKind.arrowK, 3, 3⟩) ∈
        extractGenericChunksSrc fileGenericWitness) ∧
    (GSrc.fromVar ⟨"fn", some InitKind.arrowK, 3, 3⟩).isAnonNode = true ∧
    ({ name := "fn", type := "arrow_function", startLine := 3, endLine := 3 } : Chunk).name =
      (GSrc.fromVar (⟨"fn", some InitKind.arrowK, 3, 3⟩ : VarDecl)).nearestBindingName.getD
        "<anonymous>" ∧
    (({ name := "<anonymous>", type := "function", startLine := 1, endLine := 2 },
       GSrc.fromFunc ⟨none, 1, 2⟩) ∈ extractGenericChunksSrc fileGenericWitness) ∧
    ({ name := "<anonymous>", type := "function", startLine := 1, endLine := 2 } : Chunk).name =
      (GSrc.fromFunc (⟨none, 1, 2⟩ : FuncDecl)).nearestBindingName.getD "<anonymous>" := by
  have h := (generic_anonymous_name_resolution fileGenericWitness).2
  refine ⟨by decide, by decide, ?_, by decide, ?_⟩
  · exact h ({ name := "fn", type := "arrow_function", startLine := 3,
               endLine := 3 }, GSrc.fromVar ⟨"fn", some InitKind.arrowK, 3, 3⟩)
      (by decide) (by decide)
  · exact h ({ name := "<anonymous>", type := "function", startLine := 1,
               endLine := 2 }, GSrc.fromFunc ⟨none, 1, 2⟩)
      (by decide) (by decide)

/-! ### Regex-match lemmas (C4) -/

theorem thisDot_eq (nm : List Char) :
    thisDot nm = 't' :: 'h' :: 'i' :: 's' :: '.' :: nm := rfl

theorem chPrefix_append_self (p t : List Char) : chPrefix p (p ++ t) = true := by
  induction p with
  | nil => rfl
  | cons c cs ih => simp [chPrefix, ih]

theorem matchLocAt_nil (nm : List Char) : matchLocAt nm [] = none := by
  unfold matchLocAt
  rw [if_neg]
  rw [thisDot_eq]
  simp [chPrefix]

theorem takeWhile_append_all (q : Char → Bool) (pre rest : List Char)
    (h : pre.all q = true) :
    (pre ++ rest).takeWhile q = pre ++ rest.takeWhile q := by
  induction pre with
  | nil => rfl
  | cons c cs ih =>
    simp only [List.all_cons, Bool.and_eq_true] at h
    simp [List.takeWhile_cons, h.1, ih h.2]

theorem matchEq_shape (ws expr post : List Char)
    (hws : ws.all isWsChar = true) (hne : expr ≠ [])
    (hns : expr.all (· != ';') = true) :
    matchEq (ws ++ '=' :: (expr ++ ';' :: post)) =
      some (ws.length + 1 + expr.length + 1, expr) := by
  have h1 : (ws ++ '=' :: (expr ++ ';' :: post)).takeWhile isWsChar = ws := by
    rw [takeWhile_append_all _ _ _ hws]
    simp [List.takeWhile_cons, isWsChar]
  have h2 : List.drop ws.length (ws ++ '=' :: (expr ++ ';' :: post)) =
      '=' :: (expr ++ ';' :: post) := List.drop_left ws _
  have h3 : (expr ++ ';' :: post).takeWhile (· != ';') = expr := by
    rw [takeWhile_append_all _ _ _ hns]
    simp [List.takeWhile_cons]
  have h4 : List.drop expr.length (expr ++ ';' :: post) = ';' :: post :=
    List.drop_left expr _
  unfold matchEq
  simp only [h1, h2, h3, h4]
  rw [if_neg (by simp [List.isEmpty_iff, hne])]

theorem matchLocAt_shape (name : String) (ws expr post : List Char)
    (hws : ws.all isWsChar = true) (hne : expr ≠ [])
    (hns : expr.all (· != ';') = true) :
    matchLocAt name.data (locAssignText name.data ws expr ++ post) =
      some (locAssignText name.data ws expr).length := by
  unfold matchLocAt
  have hsplit : locAssignText name.data ws expr ++ post =
      thisDot name.data ++ (ws ++ '=' :: (expr ++ ';' :: post)) := by
    simp [locAssignText]
  rw [hsplit, if_pos (chPrefix_append_self _ _), List.drop_left,
    matchEq_shape ws expr post hws hne hns]
  show some ((thisDot name.data).length + (ws.length + 1 + expr.length + 1)) =
    some (locAssignText name.data ws expr).length
  congr 1
  simp [locAssignText, List.length_append]
  omega

theorem findMatch_unique (f : List Char → Option Nat) (l : List Char)
    (i len : Nat) (hnil : f [] = none)
    (hi : f (l.drop i) = some len)
    (hbefore : ∀ j < i, f (l.drop j) = none) :
    findMatch f l = some (i, len) := by
  induction l generalizing i with
  | nil =>
    rw [List.drop_nil] at hi
    rw [hnil] at hi
    cases hi
  | cons c tl ih =>
    cases i with
    | zero =>
      rw [List.drop_zero] at hi
      unfold findMatch
      rw [hi]
    | succ i' =>
      have h0 : f (c :: tl) = none := by
        have := hbefore 0 (Nat.succ_pos i')
        rwa [List.drop_zero] at this
      unfold findMatch
      rw [h0]
      have hrec : findMatch f tl = some (i', len) := by
        apply ih i'
        · simpa using hi
        · intro j hj
          have := hbefore (j + 1) (Nat.succ_lt_succ hj)
          simpa using this
      rw [hrec]
      rfl

/-- C4: for a class whose constructor assigns each `Locator`-typed
property exactly once via a statement `this.<name> = <expr>;`, locator
extraction emits exactly one locator chunk per `Locator`-typed property
(skipping the others), in property order, and each chunk's `startLine` is
the constructor's start line plus the number of newlines in the
constructor body before the assignment — not the property's own
declaration line — while its `endLine` adds the number of newlines inside
the assignment text itself. -/
theorem locator_chunks_constructor_relative (className : String)
    (cls : ClassDecl) (ctor : CtorDecl) (hctor : cls.ctor = some ctor)
    (pre ws expr post : PropDecl → List Char)
    (hshape : ∀ p ∈ cls.props, jsIncludes p.typeText "Locator" = true →
      LocAssignShape ctor.bodyText.data p.name (pre p) (ws p) (expr p) (post p)) :
    extractLocatorsFromClass className cls =
      (cls.props.filter (fun p => jsIncludes p.typeText "Locator")).map
        (fun p =>
          { name := p.name, type := "locator", className := some className,
            startLine := ctor.startLine + countNl (pre p),
            endLine := ctor.startLine + countNl (pre p) +
              countNl (locAssignText p.name.data (ws p) (expr p)) }) := by
  unfold extractLocatorsFromClass
  rw [hctor]
  show List.filterMap _ cls.props = _
  generalize cls.props = props at hshape ⊢
  clear hctor
  induction props with
  | nil => rfl
  | cons p rest ih =>
    have ihr := ih (fun q hq hLoc => hshape q (List.mem_cons_of_mem _ hq) hLoc)
    by_cases hloc : jsIncludes p.typeText "Locator" = true
    · have hsh := hshape p (List.mem_cons_self _ _) hloc
      have hdrop : ctor.bodyText.data.drop (pre p).length =
          locAssignText p.name.data (ws p) (expr p) ++ post p := by
        conv_lhs => rw [hsh.split, List.append_assoc]
        exact List.drop_left _ _
      have hpre_lt : (pre p).length < ctor.bodyText.data.length := by
        have := congrArg List.length hsh.split
        simp only [List.length_append, locAssignText, thisDot_eq,
          List.length_cons] at this
        omega
      have hfind : findMatch (matchLocAt p.name.data) ctor.bodyText.data =
          some ((pre p).length, (locAssignText p.name.data (ws p) (expr p)).length) := by
        apply findMatch_unique _ _ _ _ (matchLocAt_nil _)
        · rw [hdrop]
          exact matchLocAt_shape p.name (ws p) (expr p) (post p)
            hsh.wsOnly hsh.exprNe hsh.exprNoSemi
        · intro j hj
          exact hsh.uniq j (lt_trans hj hpre_lt) (Nat.ne_of_lt hj)
      have htake : ctor.bodyText.data.take (pre p).length = pre p := by
        conv_lhs => rw [hsh.split, List.append_assoc]
        exact List.take_left _ _
      have hmatched : (ctor.bodyText.data.drop (pre p).length).take
          (locAssignText p.name.data (ws p) (expr p)).length =
          locAssignText p.name.data (ws p) (expr p) := by
        rw [hdrop]
        exact List.take_left _ _
      have hfp : (if !(jsIncludes p.typeText "Locator") then
          (none : Option Chunk)
          else
            match findMatch (matchLocAt p.name.data) ctor.bodyText.data with
            | some (idx, len) =>
              some (locCtorChunk className ctor.startLine ctor.bodyText.data p.name idx len)
            | none =>
              match p.initText with
              | some it =>
                if jsIncludes it "page.locator" || jsIncludes it "page.getByRole" then
                  some (locPropChunk className p)
                else none
              | none => none) =
          some { name := p.name, type := "locator", className := some className,
                 startLine := ctor.startLine + countNl (pre p),
                 endLine := ctor.startLine + countNl (pre p) +
                   countNl (locAssignText p.name.data (ws p) (expr p)) } := by
        rw [if_neg (by simp [hloc]), hfind]
        simp only [locCtorChunk, htake, hmatched]
      rw [List.filterMap_cons, List.filter_cons, if_pos hloc, List.map_cons, ihr]
      simp only [hfp]
    · have hfp : (if !(jsIncludes p.typeText "Locator") then
          (none : Option Chunk)
          else
            match findMatch (matchLocAt p.name.data) ctor.bodyText.data with
            | some (idx, len) =>
              some (locCtorChunk className ctor.startLine ctor.bodyText.data p.name idx len)
            | none =>
              match p.initText with
              | some it =>
                if jsIncludes it "page.locator" || jsIncludes it "page.getByRole" then
                  some (locPropChunk className p)
                else none
              | none => none) = none := by
        rw [if_pos (by simpa using hloc)]
      rw [List.filterMap_cons, List.filter_cons, if_neg hloc, ihr]
      simp only [hfp]

/-- Witness for the C4 theorem at the concrete class `clsTwoLocators`:
both locator chunks carry constructor-relative line offsets. -/
theorem locator_chunks_constructor_relative_witness :
    extractLocatorsFromClass "P" clsTwoLocators = twoLocatorsExpected := by
  have hsh : ∀ p ∈ clsTwoLocators.props, jsIncludes p.typeText "Locator" = true →
      LocAssignShape "\n    this.a = page.locator(\x27#a\x27);\n    this.b = page.locator(\x27#b\x27);\n  ".data
        p.name (preTwoLoc p) (wsTwoLoc p) (exprTwoLoc p) (postTwoLoc p) := by
    intro p hp _
    simp only [clsTwoLocators, List.mem_cons, List.not_mem_nil, or_false] at hp
    rcases hp with rfl | rfl
    · exact ⟨by decide, by decide, by decide, by decide, by decide⟩
    · exact ⟨by decide, by decide, by decide, by decide, by decide⟩
  have h := locator_chunks_constructor_relative "P" clsTwoLocators
    ⟨"\n    this.a = page.locator(\x27#a\x27);\n    this.b = page.locator(\x27#b\x27);\n  ", 4⟩
    rfl preTwoLoc wsTwoLoc exprTwoLoc postTwoLoc hsh
  exact h

/-! ### Substring and matcher lemmas (C5) -/

theorem chPrefix_nil_right (p : List Char) (h : chPrefix p [] = true) : p = [] := by
  cases p with
  | nil => rfl
  | cons a as => simp [chPrefix] at h

theorem chPrefix_trans (p q l : List Char) (h1 : chPrefix p q = true)
    (h2 : chPrefix q l = true) : chPrefix p l = true := by
  induction q generalizing p l with
  | nil =>
    rw [chPrefix_nil_right p h1]
    rfl
  | cons b bs ih =>
    cases p with
    | nil => rfl
    | cons a as =>
      cases l with
      | nil => simp [chPrefix] at h2
      | cons c cs =>
        simp only [chPrefix, Bool.and_eq_true, beq_iff_eq] at h1 h2 ⊢
        exact ⟨h1.1.trans h2.1, ih as cs h1.2 h2.2⟩

theorem chInfix_of_chPrefix_chInfix (p q l : List Char)
    (hpq : chPrefix p q = true) (h : chInfix q l = true) : chInfix p l = true := by
  induction l with
  | nil =>
    have hq : q = [] := chPrefix_nil_right q (by simpa [chInfix] using h)
    subst hq
    have hp : p = [] := chPrefix_nil_right p hpq
    subst hp
    rfl
  | cons c tl ih =>
    simp only [chInfix, Bool.or_eq_true] at h ⊢
    rcases h with h1 | h1
    · exact Or.inl (chPrefix_trans p q _ hpq h1)
    · exact Or.inr (ih h1)

theorem jsIncludes_getBy_of_getByRole (s : String)
    (h : jsIncludes s "page.getByRole" = true) : jsIncludes s "page.getBy" = true :=
  chInfix_of_chPrefix_chInfix _ _ _ (by decide) h

theorem chPrefix_append_left (a b l : List Char) (h1 : chPrefix a l = true)
    (h2 : chPrefix b (l.drop a.length) = true) : chPrefix (a ++ b) l = true := by
  induction a generalizing l with
  | nil => simpa using h2
  | cons c cs ih =>
    cases l with
    | nil => simp [chPrefix] at h1
    | cons d ds =>
      simp only [chPrefix, Bool.and_eq_true, List.cons_append] at h1 ⊢
      exact ⟨h1.1, ih ds h1.2 (by simpa using h2)⟩

theorem chPrefix_takeWhile (q : Char → Bool) (l : List Char) :
    chPrefix (l.takeWhile q) l = true := by
  induction l with
  | nil => rfl
  | cons c tl ih =>
    by_cases h : q c = true
    · simp [List.takeWhile_cons, h, chPrefix, ih]
    · simp [List.takeWhile_cons, h, chPrefix]

theorem matchLocAt_of_matchAssignAt (l : List Char) (nm v : String) (len : Nat)
    (h : matchAssignAt l = some (nm, v, len)) :
    matchLocAt nm.data l ≠ none := by
  unfold matchAssignAt at h
  by_cases h1 : chPrefix "this.".data l = true
  · rw [if_pos h1] at h
    by_cases h2 : ((l.drop 5).takeWhile isWordChar).isEmpty = true
    · rw [if_pos h2] at h
      cases h
    · rw [if_neg h2] at h
      cases hm : matchEq ((l.drop 5).drop ((l.drop 5).takeWhile isWordChar).length) with
      | none =>
        rw [hm] at h
        cases h
      | some nv =>
        obtain ⟨n2, v2⟩ := nv
        rw [hm] at h
        have hnm : nm = String.mk ((l.drop 5).takeWhile isWordChar) := by
          have h' := (Option.some.inj h)
          exact (congrArg Prod.fst h').symm
        have hnmd : nm.data = (l.drop 5).takeWhile isWordChar := by
          rw [hnm]
        unfold matchLocAt
        rw [if_pos]
        · have hdrop : l.drop (thisDot nm.data).length =
              (l.drop 5).drop ((l.drop 5).takeWhile isWordChar).length := by
            rw [List.drop_drop]
            congr 1
            simp [thisDot, List.length_append, hnmd]
            omega
          rw [hdrop, hm]
          simp
        · unfold thisDot
          apply chPrefix_append_left _ _ _ h1
          rw [hnmd]
          exact chPrefix_takeWhile _ _
  · rw [if_neg h1] at h
    cases h

theorem scanAssignsAux_mem (fuel : Nat) (l : List Char) (i : Nat)
    (idx : Nat) (nm v : String) (len : Nat)
    (hm : (idx, nm, v, len) ∈ scanAssignsAux fuel l i) :
    ∃ k, matchAssignAt (l.drop k) = some (nm, v, len) := by
  induction fuel generalizing l i with
  | zero =>
    simp [scanAssignsAux] at hm
  | succ fuel ih =>
    cases l with
    | nil => simp [scanAssignsAux] at hm
    | cons c tl =>
      unfold scanAssignsAux at hm
      cases hma : matchAssignAt (c :: tl) with
      | some t =>
        obtain ⟨nm', v', len'⟩ := t
        rw [hma] at hm
        rcases List.mem_cons.mp hm with he | hr
        · refine ⟨0, ?_⟩
          rw [List.drop_zero, hma]
          exact congrArg some (congrArg Prod.snd he).symm
        · obtain ⟨k, hk⟩ := ih _ _ hr
          exact ⟨len' + k, by rw [← List.drop_drop]; exact hk⟩
      | none =>
        rw [hma] at hm
        obtain ⟨k, hk⟩ := ih _ _ hm
        refine ⟨k + 1, ?_⟩
        have : (c :: tl).drop (k + 1) = tl.drop k := by simp
        rw [this]
        exact hk

theorem scanAssigns_mem (body : List Char) (idx : Nat) (nm v : String) (len : Nat)
    (hm : (idx, nm, v, len) ∈ scanAssigns body) :
    ∃ k, matchAssignAt (body.drop k) = some (nm, v, len) :=
  scanAssignsAux_mem body.length body 0 idx nm v len hm

theorem findMatch_isSome_of_match (f : List Char → Option Nat) (l : List Char)
    (k len : Nat) (hnil : f [] = none) (hk : f (l.drop k) = some len) :
    findMatch f l ≠ none := by
  induction l generalizing k with
  | nil =>
    rw [List.drop_nil, hnil] at hk
    cases hk
  | cons c tl ih =>
    cases hf : f (c :: tl) with
    | some len' =>
      unfold findMatch
      rw [hf]
      simp
    | none =>
      cases k with
      | zero =>
        rw [List.drop_zero, hf] at hk
        cases hk
      | succ k' =>
        have hk' : f (tl.drop k') = some len := by simpa using hk
        unfold findMatch
        rw [hf]
        have := ih k' hk'
        cases hfm : findMatch f tl with
        | none => exact absurd hfm this
        | some r => simp

/-! ### Extraction inversion lemmas (C5) -/

theorem mem_extractLocators_name (className : String) (cls : ClassDecl)
    (c1 : Chunk) (h : c1 ∈ extractLocatorsFromClass className cls) :
    (∃ ctor, cls.ctor = some ctor ∧ ∃ p ∈ cls.props, c1.name = p.name ∧
      jsIncludes p.typeText "Locator" = true) ∨
    (cls.ctor = none ∧ ∃ p ∈ cls.props, c1.name = p.name ∧ ∃ it,
      p.initText = some it ∧
      (jsIncludes it "page.locator" || jsIncludes it "page.getByRole") = true) := by
  unfold extractLocatorsFromClass at h
  cases hctor : cls.ctor with
  | some ctor =>
    rw [hctor] at h
    obtain ⟨p, hp, hfp⟩ := List.mem_filterMap.mp h
    left
    refine ⟨ctor, rfl, p, hp, ?_⟩
    split at hfp
    · cases hfp
    · rename_i hloc
      have hloc' : jsIncludes p.typeText "Locator" = true := by
        simpa using hloc
      split at hfp
      · rename_i idx len heq
        have hc : c1 = locCtorChunk className ctor.startLine ctor.bodyText.data p.name idx len :=
          (Option.some.inj hfp).symm
        exact ⟨by rw [hc]; rfl, hloc'⟩
      · split at hfp
        · split at hfp
          · have hc : c1 = locPropChunk className p := (Option.some.inj hfp).symm
            exact ⟨by rw [hc]; rfl, hloc'⟩
          · cases hfp
        · cases hfp
  | none =>
    rw [hctor] at h
    obtain ⟨p, hp, hfp⟩ := List.mem_filterMap.mp h
    right
    refine ⟨rfl, p, hp, ?_⟩
    split at hfp
    · rename_i it hit
      split at hfp
      · rename_i hmk
        have hc : c1 = locPropChunk className p := (Option.some.inj hfp).symm
        exact ⟨by rw [hc]; rfl, it, hit, hmk⟩
      · cases hfp
    · cases hfp

theorem mem_simpleFold (className : String) (ctorStart : Nat) (body : List Char)
    (ms : List (Nat × String × String × Nat)) (st : List Chunk × List String)
    (c : Chunk) (hc : c ∈ (ms.foldl (simpleStep className ctorStart body) st).1) :
    c ∈ st.1 ∨ ∃ m ∈ ms,
      (jsIncludes m.2.2.1 "page.locator" || jsIncludes m.2.2.1 "page.getBy") = false ∧
      c = simpleCtorChunk className ctorStart body m.2.1 m.1 m.2.2.2 := by
  induction ms generalizing st with
  | nil => exact Or.inl hc
  | cons m rest ih =>
    rw [List.foldl_cons] at hc
    rcases ih _ hc with hin | ⟨m', hm', hcond, hname⟩
    · unfold simpleStep at hin
      split at hin
      · exact Or.inl hin
      · rename_i hmk
        split at hin
        · exact Or.inl hin
        · rcases List.mem_append.mp hin with hin1 | hin2
          · exact Or.inl hin1
          · refine Or.inr ⟨m, List.mem_cons_self _ _, by simpa using hmk, ?_⟩
            simpa using hin2
    · exact Or.inr ⟨m', List.mem_cons_of_mem _ hm', hcond, hname⟩

theorem mem_simpleInitFold (className : String) (props : List PropDecl)
    (st : List Chunk × List String) (c : Chunk)
    (hc : c ∈ (props.foldl (simpleInitStep className) st).1) :
    c ∈ st.1 ∨ ∃ p ∈ props, jsIncludes p.typeText "Locator" = false ∧
      (∃ it, p.initText = some it ∧ jsIncludes it "page.locator" = false ∧
        jsIncludes it "page.getBy" = false) ∧
      c = { name := p.name, type := "helper", className := some className,
            startLine := p.startLine, endLine := p.endLine } := by
  induction props generalizing st with
  | nil => exact Or.inl hc
  | cons p rest ih =>
    rw [List.foldl_cons] at hc
    rcases ih _ hc with hin | ⟨p', hp', h1, h2, h3⟩
    · unfold simpleInitStep at hin
      split at hin
      · exact Or.inl hin
      · split at hin
        · exact Or.inl hin
        · rename_i htyp
          split at hin
          · rename_i it hit
            split at hin
            · rename_i hmk
              rcases List.mem_append.mp hin with hin1 | hin2
              · exact Or.inl hin1
              · have hmks := (Bool.and_eq_true _ _).mp hmk
                exact Or.inr ⟨p, List.mem_cons_self _ _, by simpa using htyp,
                  ⟨it, hit, by simpa using hmks.1, by simpa using hmks.2⟩,
                  List.mem_singleton.mp hin2⟩
            · exact Or.inl hin
          · exact Or.inl hin
    · exact Or.inr ⟨p', List.mem_cons_of_mem _ hp', h1, h2, h3⟩

theorem mem_extractSimple_name (className : String) (cls : ClassDecl)
    (c2 : Chunk) (h : c2 ∈ extractSimpleProperties className cls) :
    (∃ ctor, cls.ctor = some ctor ∧ ∃ m ∈ scanAssigns ctor.bodyText.data,
      (jsIncludes m.2.2.1 "page.locator" || jsIncludes m.2.2.1 "page.getBy") = false ∧
      c2.name = m.2.1) ∨
    (∃ p ∈ cls.props, jsIncludes p.typeText "Locator" = false ∧
      (∃ it, p.initText = some it ∧ jsIncludes it "page.locator" = false ∧
        jsIncludes it "page.getBy" = false) ∧
      c2.name = p.name) := by
  unfold extractSimpleProperties at h
  cases hctor : cls.ctor with
  | some ctor =>
    rw [hctor] at h
    rcases mem_simpleInitFold className cls.props _ c2 h with hin | hrest
    · rcases mem_simpleFold className ctor.startLine ctor.bodyText.data _ _ c2 hin with
        hnil | ⟨m, hm, hcond, hname⟩
      · exact absurd hnil (List.not_mem_nil c2)
      · exact Or.inl ⟨ctor, rfl, m, hm, hcond, by rw [hname]; rfl⟩
    · obtain ⟨p, hp, h1, h2, h3⟩ := hrest
      exact Or.inr ⟨p, hp, h1, h2, by rw [h3]⟩
  | none =>
    rw [hctor] at h
    rcases mem_simpleInitFold className cls.props _ c2 h with hin | hrest
    · exact absurd hin (List.not_mem_nil c2)
    · obtain ⟨p, hp, h1, h2, h3⟩ := hrest
      exact Or.inr ⟨p, hp, h1, h2, by rw [h3]⟩

/-- C5 (amended): the exclusion of locator-claimed properties from the
simple-property scan is textual, not set-based — a constructor assignment
is skipped exactly when its right-hand side contains `page.locator` or
`page.getBy`.  Hence no name receives both a locator chunk and a helper
chunk provided every constructor assignment targeting a `Locator`-typed
property has such a right-hand side (the counterexample shows the
duplicate when it does not). -/
theorem no_locator_helper_duplicate (className : String) (cls : ClassDecl)
    (hnodup : (cls.props.map (fun p => p.name)).Nodup)
    (hmark : ∀ m ∈ scanAssigns (ctorBodyOf cls),
      (∃ p ∈ cls.props, p.name = m.2.1 ∧ jsIncludes p.typeText "Locator" = true) →
      (jsIncludes m.2.2.1 "page.locator" || jsIncludes m.2.2.1 "page.getBy") = true) :
    ∀ c1 ∈ extractLocatorsFromClass className cls,
    ∀ c2 ∈ extractSimpleProperties className cls, c1.name ≠ c2.name := by
  intro c1 hc1 c2 hc2 heq
  have hinj : ∀ p ∈ cls.props, ∀ q ∈ cls.props, p.name = q.name → p = q :=
    fun p hp q hq hpq => List.inj_on_of_nodup_map hnodup hp hq hpq
  rcases mem_extractLocators_name className cls c1 hc1 with
    ⟨ctor, hctor, p, hp, hname1, htyp1⟩ | ⟨hctor, p, hp, hname1, it1, hit1, hmk1⟩
  · rcases mem_extractSimple_name className cls c2 hc2 with
      ⟨ctor', hctor', m, hm, hcond, hname2⟩ | ⟨p', hp', htyp2, hinit2, hname2⟩
    · have hcc : ctor' = ctor := by
        rw [hctor] at hctor'
        exact (Option.some.inj hctor').symm
      subst hcc
      have hmm : m ∈ scanAssigns (ctorBodyOf cls) := by
        unfold ctorBodyOf
        rw [hctor]
        exact hm
      have := hmark m hmm ⟨p, hp, by rw [← hname1, heq, hname2], htyp1⟩
      rw [this] at hcond
      cases hcond
    · have hpp : p = p' := hinj p hp p' hp' (by rw [← hname1, heq, hname2])
      rw [← hpp] at htyp2
      exact absurd htyp1 (by simp [htyp2])
  · rcases mem_extractSimple_name className cls c2 hc2 with
      ⟨ctor', hctor', -⟩ | ⟨p', hp', htyp2, ⟨it2, hit2, hmk2a, hmk2b⟩, hname2⟩
    · rw [hctor] at hctor'
      cases hctor'
    · have hpp : p = p' := hinj p hp p' hp' (by rw [← hname1, heq, hname2])
      rw [← hpp] at hit2
      rw [hit1] at hit2
      have hii : it1 = it2 := Option.some.inj hit2
      subst hii
      rcases Bool.or_eq_true_iff.mp hmk1 with hA | hB
      · exact absurd hA (by simp [hmk2a])
      · exact absurd (jsIncludes_getBy_of_getByRole it1 hB) (by simp [hmk2b])

/-- Witness for the amended C5 theorem at `clsLocMarkerOk`: the hypotheses
hold, the locator chunk for `x` and the helper chunk for `url` are both
emitted, and the theorem separates their names. -/
theorem no_locator_helper_duplicate_witness :
    (clsLocMarkerOk.props.map (fun p => p.name)).Nodup ∧
    ({ name := "x", type := "locator", className := some "W",
       startLine := 4, endLine := 4 } : Chunk) ∈
      extractLocatorsFromClass "W" clsLocMarkerOk ∧
    ({ name := "url", type := "helper", className := some "W",
       startLine := 5, endLine := 5 } : Chunk) ∈
      extractSimpleProperties "W" clsLocMarkerOk ∧
    ({ name := "x", type := "locator", className := some "W",
       startLine := 4, endLine := 4 } : Chunk).name ≠
      ({ name := "url", type := "helper", className := some "W",
         startLine := 5, endLine := 5 } : Chunk).name := by
  have h1 : (clsLocMarkerOk.props.map (fun p => p.name)).Nodup := by decide
  have h2 : ∀ m ∈ scanAssigns (ctorBodyOf clsLocMarkerOk),
      (∃ p ∈ clsLocMarkerOk.props, p.name = m.2.1 ∧
        jsIncludes p.typeText "Locator" = true) →
      (jsIncludes m.2.2.1 "page.locator" || jsIncludes m.2.2.1 "page.getBy") = true := by
    intro m hm
    have hms : scanAssigns (ctorBodyOf clsLocMarkerOk) =
        [(0, "x", "page.locator(\x27#x\x27)", 28),
         (29, "url", "\x27https://a\x27", 23)] := by decide
    rw [hms] at hm
    rcases List.mem_cons.mp hm with rfl | hm'
    · intro _
      decide
    · rcases List.mem_cons.mp hm' with rfl | hm''
      · rintro ⟨p, hp, hname, htyp⟩
        exfalso
        simp only [clsLocMarkerOk, List.mem_cons, List.not_mem_nil, or_false] at hp
        rcases hp with rfl | rfl
        · exact absurd hname (by decide)
        · exact absurd htyp (by decide)
      · exact absurd hm'' (List.not_mem_nil _)
  refine ⟨h1, ?_, ?_, ?_⟩
  · decide
  · decide
  · exact no_locator_helper_duplicate "W" clsLocMarkerOk h1 h2 _ (by decide) _ (by decide)

/-! ### Spec extraction over built files (C2, C10) -/

theorem callsCtx_testCallOf (anc : List String) (t : TestItem) :
    callsCtx anc false (testCallOf t) = [(testCallOf t, anc, false)] := rfl

theorem callsCtxL_testCalls (anc : List String) (ts : List TestItem) :
    callsCtxL anc (ts.map testCallOf) =
      ts.map (fun t => (testCallOf t, anc, false)) := by
  induction ts with
  | nil => rfl
  | cons t rest ih =>
    rw [List.map_cons, List.map_cons]
    show callsCtx anc false (testCallOf t) ++ callsCtxL anc (rest.map testCallOf) = _
    rw [callsCtx_testCallOf, ih]
    rfl

theorem map_fst_testCalls (ts : List TestItem) (anc : List String) (b : Bool) :
    (ts.map (fun t => (testCallOf t, anc, b))).map Prod.fst = ts.map testCallOf := by
  induction ts with
  | nil => rfl
  | cons t r ih =>
    rw [List.map_cons, List.map_cons, List.map_cons, ih]

theorem callsCtx_buildItem (it : SpecItem) :
    callsCtx [] false (buildItem it) = itemCalls it := by
  cases it with
  | suite raw ts sl el =>
    show callsCtx [] true (describeCallOf raw ts sl el) = _
    unfold describeCallOf
    show (Expr.call (.plain "test.describe")
        [.strLit raw sl sl, .other (ts.map testCallOf) "() => {}" sl el]
        "test.describe(...)" sl el, [], true) ::
      callsCtxL ["test.describe"] [.strLit raw sl sl,
        .other (ts.map testCallOf) "() => {}" sl el] = _
    have hargs : callsCtxL ["test.describe"] [.strLit raw sl sl,
        .other (ts.map testCallOf) "() => {}" sl el] =
        ts.map (fun t => (testCallOf t, ["test.describe"], false)) := by
      show callsCtx ["test.describe"] false (.strLit raw sl sl) ++
        (callsCtx ["test.describe"] false (.other (ts.map testCallOf) "() => {}" sl el) ++
          callsCtxL ["test.describe"] []) = _
      show [] ++ (callsCtxL ["test.describe"] (ts.map testCallOf) ++ []) = _
      rw [List.nil_append, List.append_nil, callsCtxL_testCalls]
    rw [hargs]
    rfl
  | bare t => rfl

theorem fileCalls_buildSpecFile (items : List SpecItem) :
    fileCalls (buildSpecFile items) = items.flatMap itemCalls := by
  unfold fileCalls buildSpecFile
  induction items with
  | nil => rfl
  | cons it rest ih =>
    rw [List.map_cons, List.flatMap_cons]
    show callsCtx [] false (buildItem it) ++ callsCtxL [] (rest.map buildItem) = _
    rw [callsCtx_buildItem, ih]

theorem calleeTextOf_testCallOf (t : TestItem) :
    calleeTextOf (testCallOf t) = "test" := rfl

theorem calleeTextOf_describeCallOf (raw : String) (ts : List TestItem)
    (sl el : Nat) : calleeTextOf (describeCallOf raw ts sl el) = "test.describe" := rfl

theorem filter_describe_testCalls (ts : List TestItem) :
    (ts.map testCallOf).filter (fun e => isDescribeText (calleeTextOf e)) = [] := by
  induction ts with
  | nil => rfl
  | cons t rest ih =>
    rw [List.map_cons, List.filter_cons]
    have h : isDescribeText (calleeTextOf (testCallOf t)) = false := by
      rw [calleeTextOf_testCallOf]
      decide
    rw [h]
    simpa using ih

theorem describe_filter_itemCalls (items : List SpecItem) :
    ((items.flatMap itemCalls).map Prod.fst).filter
        (fun e => isDescribeText (calleeTextOf e)) =
      items.flatMap (fun it =>
        match it with
        | SpecItem.suite raw ts sl el => [describeCallOf raw ts sl el]
        | SpecItem.bare _ => []) := by
  induction items with
  | nil => rfl
  | cons it rest ih =>
    rw [List.flatMap_cons, List.map_append, List.filter_append, ih,
      List.flatMap_cons]
    congr 1
    cases it with
    | suite raw ts sl el =>
      unfold itemCalls
      rw [List.map_cons, List.filter_cons]
      have hd : isDescribeText (calleeTextOf (describeCallOf raw ts sl el)) = true := by
        rw [calleeTextOf_describeCallOf]
        decide
      rw [hd, if_pos rfl, map_fst_testCalls, filter_describe_testCalls]
    | bare t =>
      unfold itemCalls
      rw [List.map_cons, List.filter_cons]
      have h : isDescribeText (calleeTextOf (testCallOf t)) = false := by
        rw [calleeTextOf_testCallOf]
        decide
      rw [h]
      rfl

theorem callDescs_callback (ts : List TestItem) (txt : String) (sl el : Nat) :
    callDescs (.other (ts.map testCallOf) txt sl el) = ts.map testCallOf := by
  show (callsCtxL [] (ts.map testCallOf)).map Prod.fst = _
  rw [callsCtxL_testCalls, map_fst_testCalls]

theorem filter_test_testCalls (ts : List TestItem) :
    (ts.map testCallOf).filter (fun e => isTestText (calleeTextOf e)) =
      ts.map testCallOf := by
  induction ts with
  | nil => rfl
  | cons t rest ih =>
    rw [List.map_cons, List.filter_cons]
    have h : isTestText (calleeTextOf (testCallOf t)) = true := by
      rw [calleeTextOf_testCallOf]
      decide
    rw [h, if_pos rfl, ih]

theorem groupedTestChunk_testCallOf (s : String) (t : TestItem)
    (ht : isHookName (extractStringValue t.raw) = false) :
    groupedTestChunk s (testCallOf t) = some (expectedTestChunk (some s) t) := by
  show (if isHookName (extractStringValue ((Expr.strLit t.raw t.startLine t.startLine).text)) = true
    then none
    else some ({ name := extractStringValue ((Expr.strLit t.raw t.startLine t.startLine).text),
                 type := "test", testSuiteName := some s,
                 startLine := t.startLine, endLine := t.endLine } : Chunk)) =
    some (expectedTestChunk (some s) t)
  rw [show (Expr.strLit t.raw t.startLine t.startLine).text = t.raw from rfl, ht]
  rw [if_neg (by simp)]
  rfl

theorem filterMap_grouped_testCalls (s : String) (ts : List TestItem)
    (hts : ∀ t ∈ ts, isHookName (extractStringValue t.raw) = false) :
    (ts.map testCallOf).filterMap (groupedTestChunk s) =
      ts.map (expectedTestChunk (some s)) := by
  induction ts with
  | nil => rfl
  | cons t rest ih =>
    rw [List.map_cons, List.filterMap_cons,
      groupedTestChunk_testCallOf s t (hts t (List.mem_cons_self _ _)),
      List.map_cons, ih (fun q hq => hts q (List.mem_cons_of_mem _ hq))]

theorem describeChunks_describeCallOf (raw : String) (ts : List TestItem)
    (sl el : Nat) (hts : ∀ t ∈ ts, isHookName (extractStringValue t.raw) = false) :
    describeChunks (describeCallOf raw ts sl el) =
      ts.map (expectedTestChunk (some (extractStringValue raw))) := by
  have hmain : describeChunks (describeCallOf raw ts sl el) =
      ((callDescs (.other (ts.map testCallOf) "() => {}" sl el)).filter
        (fun e => isTestText (calleeTextOf e))).filterMap
        (groupedTestChunk (extractStringValue raw)) := rfl
  rw [hmain, callDescs_callback, filter_test_testCalls,
    filterMap_grouped_testCalls _ _ hts]

theorem standaloneEntry_not_test (e : Expr) (anc : List String) (b : Bool)
    (h : isTestText (calleeTextOf e) = false) :
    standaloneEntry (e, anc, b) = none := by
  show (if isTestText (calleeTextOf e) = true then
      if anc.any isDescribeText = true then none else standaloneTestChunk e
    else none) = none
  rw [if_neg (by simp [h])]

theorem standaloneEntry_in_describe (e : Expr) (anc : List String) (b : Bool)
    (ht : isTestText (calleeTextOf e) = true) (ha : anc.any isDescribeText = true) :
    standaloneEntry (e, anc, b) = none := by
  show (if isTestText (calleeTextOf e) = true then
      if anc.any isDescribeText = true then none else standaloneTestChunk e
    else none) = none
  rw [if_pos ht, if_pos ha]

theorem standaloneEntry_top (e : Expr) (anc : List String) (b : Bool)
    (ht : isTestText (calleeTextOf e) = true) (ha : anc.any isDescribeText = false) :
    standaloneEntry (e, anc, b) = standaloneTestChunk e := by
  show (if isTestText (calleeTextOf e) = true then
      if anc.any isDescribeText = true then none else standaloneTestChunk e
    else none) = standaloneTestChunk e
  rw [if_pos ht, if_neg (by simp [ha])]

theorem standaloneTestChunk_testCallOf (t : TestItem)
    (ht : isHookName (extractStringValue t.raw) = false) :
    standaloneTestChunk (testCallOf t) = some (expectedTestChunk none t) := by
  show (if isHookName (extractStringValue ((Expr.strLit t.raw t.startLine t.startLine).text)) = true
    then none
    else some ({ name := extractStringValue ((Expr.strLit t.raw t.startLine t.startLine).text),
                 type := "test", testSuiteName := none,
                 startLine := t.startLine, endLine := t.endLine } : Chunk)) =
    some (expectedTestChunk none t)
  rw [show (Expr.strLit t.raw t.startLine t.startLine).text = t.raw from rfl, ht]
  rw [if_neg (by simp)]
  rfl

theorem standaloneEntry_itemCalls (items : List SpecItem)
    (hwf : NoHookItems items) :
    (items.flatMap itemCalls).filterMap standaloneEntry =
      expectedStandalone items := by
  induction items with
  | nil => rfl
  | cons it rest ih =>
    have hwf' : NoHookItems rest := fun q hq => hwf q (List.mem_cons_of_mem _ hq)
    rw [List.flatMap_cons, List.filterMap_append, ih hwf']
    unfold expectedStandalone
    rw [List.flatMap_cons]
    congr 1
    cases it with
    | suite raw ts sl el =>
      unfold itemCalls
      rw [List.filterMap_cons]
      rw [standaloneEntry_not_test _ _ _
        (by rw [calleeTextOf_describeCallOf]; decide)]
      have hts : ∀ ts' : List TestItem,
          (ts'.map (fun t => (testCallOf t, (["test.describe"] : List String), false))).filterMap
            standaloneEntry = [] := by
        intro ts'
        induction ts' with
        | nil => rfl
        | cons t r ihh =>
          rw [List.map_cons, List.filterMap_cons,
            standaloneEntry_in_describe _ _ _
              (by rw [calleeTextOf_testCallOf]; decide) (by decide), ihh]
      rw [hts]
    | bare t =>
      unfold itemCalls
      rw [List.filterMap_cons]
      rw [standaloneEntry_top _ _ _
        (by rw [calleeTextOf_testCallOf]; decide) (by decide)]
      rw [standaloneTestChunk_testCallOf t (hwf (SpecItem.bare t) (List.mem_cons_self _ _))]
      rfl

theorem grouped_buildSpecFile (items : List SpecItem) (hwf : NoHookItems items) :
    groupedChunksOf (buildSpecFile items) = expectedGrouped items := by
  unfold groupedChunksOf
  rw [show ((fileCalls (buildSpecFile items)).map (·.1)) =
    ((fileCalls (buildSpecFile items)).map Prod.fst) from rfl]
  rw [fileCalls_buildSpecFile, describe_filter_itemCalls]
  unfold expectedGrouped
  induction items with
  | nil => rfl
  | cons it rest ih =>
    have hwf' : NoHookItems rest := fun q hq => hwf q (List.mem_cons_of_mem _ hq)
    rw [List.flatMap_cons, List.flatMap_append, ih hwf', List.flatMap_cons]
    congr 1
    cases it with
    | suite raw ts sl el =>
      rw [List.flatMap_cons, List.flatMap_nil, List.append_nil]
      exact describeChunks_describeCallOf raw ts sl el
        (hwf (SpecItem.suite raw ts sl el) (List.mem_cons_self _ _))
    | bare t => rfl

theorem spec_buildSpecFile (items : List SpecItem) (hwf : NoHookItems items) :
    extractPlaywrightSpecChunks (buildSpecFile items) =
      expectedGrouped items ++ expectedStandalone items := by
  unfold extractPlaywrightSpecChunks standaloneChunksOf
  rw [grouped_buildSpecFile items hwf, fileCalls_buildSpecFile,
    standaloneEntry_itemCalls items hwf]

theorem groupedTestChunk_suite (s : String) (tc : Expr) (c : Chunk)
    (h : groupedTestChunk s tc = some c) : c.testSuiteName = some s := by
  unfold groupedTestChunk at h
  split at h
  · split at h
    · cases h
    · cases Option.some.inj h
      rfl
  · cases h

theorem standaloneTestChunk_nosuite (tc : Expr) (c : Chunk)
    (h : standaloneTestChunk tc = some c) : c.testSuiteName = none := by
  unfold standaloneTestChunk at h
  split at h
  · split at h
    · cases h
    · cases Option.some.inj h
      rfl
  · cases h

theorem mem_groupedChunksOf_suite (f : SpecStmts) (c : Chunk)
    (hc : c ∈ groupedChunksOf f) : c.testSuiteName.isSome = true := by
  unfold groupedChunksOf at hc
  obtain ⟨dc, -, hcd⟩ := List.mem_flatMap.mp hc
  unfold describeChunks at hcd
  split at hcd
  · obtain ⟨tc, -, hg⟩ := List.mem_filterMap.mp hcd
    rw [groupedTestChunk_suite _ _ _ hg]
    rfl
  · cases hcd

theorem mem_standaloneChunksOf_nosuite (f : SpecStmts) (c : Chunk)
    (hc : c ∈ standaloneChunksOf f) : c.testSuiteName = none := by
  unfold standaloneChunksOf at hc
  obtain ⟨ec, -, he⟩ := List.mem_filterMap.mp hc
  unfold standaloneEntry at he
  split at he
  · split at he
    · cases he
    · exact standaloneTestChunk_nosuite _ _ he
  · cases he

theorem mem_expectedGrouped_suite (items : List SpecItem) (c : Chunk)
    (hc : c ∈ expectedGrouped items) : c.testSuiteName.isSome = true := by
  unfold expectedGrouped at hc
  obtain ⟨it, -, hit⟩ := List.mem_flatMap.mp hc
  cases it with
  | suite raw ts sl el =>
    obtain ⟨t, -, rfl⟩ := List.mem_map.mp hit
    rfl
  | bare t => cases hit

theorem mem_expectedStandalone_nosuite (items : List SpecItem) (c : Chunk)
    (hc : c ∈ expectedStandalone items) : c.testSuiteName = none := by
  unfold expectedStandalone at hc
  obtain ⟨it, -, hit⟩ := List.mem_flatMap.mp hc
  cases it with
  | suite raw ts sl el => cases hit
  | bare t =>
    rw [List.mem_singleton.mp hit]
    rfl

theorem expected_lengths (items : List SpecItem) :
    (expectedGrouped items).length + (expectedStandalone items).length =
      itemTestCount items := by
  induction items with
  | nil => rfl
  | cons it rest ih =>
    unfold expectedGrouped expectedStandalone itemTestCount at *
    rw [List.flatMap_cons, List.flatMap_cons, List.map_cons, List.length_append,
      List.length_append, List.sum_cons]
    cases it with
    | suite raw ts sl el =>
      simp only [List.length_map, List.length_nil]
      omega
    | bare t =>
      simp only [List.length_nil, List.length_cons]
      omega

/-- C2 (amended): for spec files whose grouping calls are not nested (each
`describe` has a title and a callback holding its test calls, and every
test call has two arguments and a non-lifecycle name), every test-case
call is emitted exactly once — grouped with its suite's name exactly when
it sits in a recognized grouping call's callback, standalone otherwise —
so the chunk count equals the test-call count.  With NESTED grouping
calls, a test is emitted once per enclosing recognized grouping call (see
the counterexample), and a test under a grouping call with fewer than two
arguments is omitted. -/
theorem spec_tests_emitted_exactly_once (items : List SpecItem)
    (hwf : NoHookItems items) :
    extractPlaywrightSpecChunks (buildSpecFile items) =
      expectedGrouped items ++ expectedStandalone items ∧
    (extractPlaywrightSpecChunks (buildSpecFile items)).length =
      itemTestCount items ∧
    (∀ c ∈ expectedGrouped items, c.testSuiteName.isSome = true) ∧
    (∀ c ∈ expectedStandalone items, c.testSuiteName = none) := by
  refine ⟨spec_buildSpecFile items hwf, ?_,
    mem_expectedGrouped_suite items, mem_expectedStandalone_nosuite items⟩
  rw [spec_buildSpecFile items hwf, List.length_append, expected_lengths]

/-- Witness for the amended C2 theorem at `itemsStandaloneFirst`: the
hypotheses hold and both tests are emitted exactly once. -/
theorem spec_tests_emitted_exactly_once_witness :
    extractPlaywrightSpecChunks (buildSpecFile itemsStandaloneFirst) =
      expectedGrouped itemsStandaloneFirst ++ expectedStandalone itemsStandaloneFirst ∧
    (extractPlaywrightSpecChunks (buildSpecFile itemsStandaloneFirst)).length =
      itemTestCount itemsStandaloneFirst := by
  have hwf : NoHookItems itemsStandaloneFirst := by
    intro it hit
    rcases List.mem_cons.mp hit with rfl | hit2
    · decide
    · rcases List.mem_cons.mp hit2 with rfl | hit3
      · decide
      · exact absurd hit3 (List.not_mem_nil _)
  obtain ⟨h1, h2, -, -⟩ := spec_tests_emitted_exactly_once itemsStandaloneFirst hwf
  exact ⟨h1, h2⟩

/-- C10: the output of the spec extractor is always the grouped chunks
(each carrying a suite name) followed by the standalone chunks (each
without one), independent of source order; on a built file whose
standalone test precedes its describe block, the grouped chunks still come
first, suites in source order with their tests in order. -/
theorem grouped_before_standalone :
    (∀ f : SpecStmts,
      extractPlaywrightSpecChunks f = groupedChunksOf f ++ standaloneChunksOf f ∧
      (∀ c ∈ groupedChunksOf f, c.testSuiteName.isSome = true) ∧
      (∀ c ∈ standaloneChunksOf f, c.testSuiteName = none)) ∧
    (∀ items : List SpecItem, NoHookItems items →
      groupedChunksOf (buildSpecFile items) = expectedGrouped items ∧
      extractPlaywrightSpecChunks (buildSpecFile items) =
        expectedGrouped items ++ expectedStandalone items) := by
  constructor
  · intro f
    exact ⟨rfl, mem_groupedChunksOf_suite f, mem_standaloneChunksOf_nosuite f⟩
  · intro items hwf
    exact ⟨grouped_buildSpecFile items hwf, spec_buildSpecFile items hwf⟩

/-- Witness for C10 at `itemsStandaloneFirst`: the standalone test occurs
first in the source, yet the emitted list has the grouped chunk first. -/
theorem grouped_before_standalone_witness :
    extractPlaywrightSpecChunks (buildSpecFile itemsStandaloneFirst) =
      [{ name := "beta", type := "test", testSuiteName := some "S",
         startLine := 4, endLine := 5 },
       { name := "alpha", type := "test", testSuiteName := none,
         startLine := 1, endLine := 2 }] := by
  have hwf : NoHookItems itemsStandaloneFirst := by
    intro it hit
    rcases List.mem_cons.mp hit with rfl | hit2
    · decide
    · rcases List.mem_cons.mp hit2 with rfl | hit3
      · decide
      · exact absurd hit3 (List.not_mem_nil _)
  have h := (grouped_before_standalone.2 itemsStandaloneFirst hwf).2
  rw [h]
  decide

/-! ### The chunk invariant over every extraction path (C7) -/

theorem ble_le {a b : Nat} (h : Nat.ble a b = true) : a ≤ b :=
  Nat.le_of_ble_eq_true h

theorem ne_empty_of_beq {s : String} (h : (s == "") = false) : s ≠ "" := by
  intro he
  rw [he] at h
  simp at h

theorem jsOrElse_ne_empty (s : Option String) (d : String) (hd : d ≠ "") :
    jsOrElse s d ≠ "" := by
  cases s with
  | none => exact hd
  | some v =>
    by_cases hv : (v == "") = true
    · simp only [jsOrElse, hv, if_true]
      exact hd
    · simp only [jsOrElse, if_neg hv]
      exact ne_empty_of_beq (by simpa using hv)

theorem str_append_ne_empty_right (a b : String) (hb : b.data ≠ []) :
    a ++ b ≠ "" := by
  intro h
  have hd := congrArg String.data h
  rw [String.data_append] at hd
  exact hb (List.append_eq_nil.mp hd).2

theorem str_append_ne_empty_left (a b : String) (ha : a.data ≠ []) :
    a ++ b ≠ "" := by
  intro h
  have hd := congrArg String.data h
  rw [String.data_append] at hd
  exact ha (List.append_eq_nil.mp hd).1

theorem determineChunkType_mem (ns : List String) (ct : String) :
    determineChunkType ns ct ∈ chunkKinds := by
  simp only [determineChunkType]
  split
  · decide
  · split
    · decide
    · decide

theorem matchAssignAt_name_ne_empty (l : List Char) (nm v : String) (len : Nat)
    (h : matchAssignAt l = some (nm, v, len)) : nm ≠ "" := by
  unfold matchAssignAt at h
  split at h
  · split at h
    · cases h
    · rename_i hne
      split at h
      · have h1 := Option.some.inj h
        have hnm : nm = String.mk ((l.drop 5).takeWhile isWordChar) :=
          (congrArg Prod.fst h1).symm
        cases htw : (l.drop 5).takeWhile isWordChar with
        | nil =>
          rw [htw] at hne
          simp at hne
        | cons a as =>
          rw [htw] at hnm
          rw [hnm]
          intro hs
          have hdat := congrArg String.data hs
          simp at hdat
      · cases h
  · cases h

theorem wfE_call_le {c : Callee} {args : List Expr} {txt : String} {sl el : Nat}
    (hw : wfE (.call c args txt sl el) = true) : sl ≤ el := by
  simp only [wfE, Bool.and_eq_true] at hw
  exact ble_le hw.1

theorem wfE_call_args {c : Callee} {args : List Expr} {txt : String} {sl el : Nat}
    (hw : wfE (.call c args txt sl el) = true) : wfEL args = true := by
  simp only [wfE, Bool.and_eq_true] at hw
  exact hw.2

theorem wfEL_mem {es : List Expr} (hw : wfEL es = true) :
    ∀ e ∈ es, wfE e = true := by
  induction es with
  | nil => intro e he; exact absurd he (List.not_mem_nil e)
  | cons a as ih =>
    simp only [wfEL, Bool.and_eq_true] at hw
    intro e he
    rcases List.mem_cons.mp he with rfl | h
    · exact hw.1
    · exact ih hw.2 e h

theorem wfEP_mem {ps : List (String × Expr × Nat × Nat)} (hw : wfEP ps = true) :
    ∀ p ∈ ps, (p.1 == "") = false ∧ p.2.2.1 ≤ p.2.2.2 ∧ wfE p.2.1 = true := by
  induction ps with
  | nil => intro p hp; exact absurd hp (List.not_mem_nil p)
  | cons q qs ih =>
    simp only [wfEP, Bool.and_eq_true, and_assoc] at hw
    intro p hp
    rcases List.mem_cons.mp hp with rfl | h
    · exact ⟨by simpa using hw.1, ble_le hw.2.1, hw.2.2.1⟩
    · exact ih hw.2.2.2 p h

mutual

theorem wf_callsCtx : ∀ (e : Expr) (anc : List String) (pst : Bool),
    wfE e = true → ∀ p ∈ callsCtx anc pst e, wfE p.1 = true
  | .call c args txt sl el, anc, pst, hw, p, hp => by
    simp only [callsCtx] at hp
    rcases List.mem_cons.mp hp with heq | hmem
    · rw [heq]
      exact hw
    · exact wf_callsCtxL args (calleeText c :: anc) (wfE_call_args hw) p hmem
  | .strLit t sl el, anc, pst, hw, p, hp => by
    simp only [callsCtx] at hp
    exact absurd hp (List.not_mem_nil p)
  | .objLit props t sl el, anc, pst, hw, p, hp => by
    simp only [callsCtx] at hp
    simp only [wfE, Bool.and_eq_true] at hw
    exact wf_callsCtxP props anc hw.2 p hp
  | .exprStmt inner t sl el, anc, pst, hw, p, hp => by
    simp only [callsCtx] at hp
    simp only [wfE, Bool.and_eq_true] at hw
    exact wf_callsCtx inner anc true hw.2 p hp
  | .other children t sl el, anc, pst, hw, p, hp => by
    simp only [callsCtx] at hp
    simp only [wfE, Bool.and_eq_true] at hw
    exact wf_callsCtxL children anc hw.2 p hp

theorem wf_callsCtxL : ∀ (es : List Expr) (anc : List String),
    wfEL es = true → ∀ p ∈ callsCtxL anc es, wfE p.1 = true
  | [], _, _, p, hp => by
    simp only [callsCtxL] at hp
    exact absurd hp (List.not_mem_nil p)
  | e :: es, anc, hw, p, hp => by
    simp only [callsCtxL] at hp
    simp only [wfEL, Bool.and_eq_true] at hw
    rcases List.mem_append.mp hp with h1 | h1
    · exact wf_callsCtx e anc false hw.1 p h1
    · exact wf_callsCtxL es anc hw.2 p h1

theorem wf_callsCtxP : ∀ (ps : List (String × Expr × Nat × Nat)) (anc : List String),
    wfEP ps = true → ∀ p ∈ callsCtxP anc ps, wfE p.1 = true
  | [], _, _, p, hp => by
    simp only [callsCtxP] at hp
    exact absurd hp (List.not_mem_nil p)
  | (nm, e, a, b) :: ps, anc, hw, p, hp => by
    simp only [callsCtxP] at hp
    simp only [wfEP, Bool.and_eq_true, and_assoc] at hw
    rcases List.mem_append.mp hp with h1 | h1
    · exact wf_callsCtx e anc false hw.2.2.1 p h1
    · exact wf_callsCtxP ps anc hw.2.2.2 p h1

end

theorem wf_callDescs (e : Expr) (hw : wfE e = true) :
    ∀ tc ∈ callDescs e, wfE tc = true := by
  intro tc htc
  cases e with
  | call c args txt sl el =>
    simp only [callDescs] at htc
    obtain ⟨p, hp, hpe⟩ := List.mem_map.mp htc
    rw [← hpe]
    exact wf_callsCtxL args [] (wfE_call_args hw) p hp
  | strLit t sl el =>
    simp only [callDescs] at htc
    obtain ⟨p, hp, hpe⟩ := List.mem_map.mp htc
    rw [← hpe]
    exact wf_callsCtx _ [] false hw p hp
  | objLit props t sl el =>
    simp only [callDescs] at htc
    obtain ⟨p, hp, hpe⟩ := List.mem_map.mp htc
    rw [← hpe]
    exact wf_callsCtx _ [] false hw p hp
  | exprStmt inner t sl el =>
    simp only [callDescs] at htc
    obtain ⟨p, hp, hpe⟩ := List.mem_map.mp htc
    rw [← hpe]
    exact wf_callsCtx _ [] false hw p hp
  | other children t sl el =>
    simp only [callDescs] at htc
    obtain ⟨p, hp, hpe⟩ := List.mem_map.mp htc
    rw [← hpe]
    exact wf_callsCtx _ [] false hw p hp

theorem groupedTestChunk_inv (s : String) (tc : Expr) (c : Chunk)
    (h : groupedTestChunk s tc = some c) (hw : wfE tc = true) : chunkInv c := by
  unfold groupedTestChunk at h
  split at h
  · rename_i c0 a0 a1 rest sl el
    split at h
    · cases h
    · have hc := (Option.some.inj h).symm
      rw [hc]
      refine ⟨?_, wfE_call_le hw, fun _ => Or.inl rfl⟩
      show "test" ∈ chunkKinds
      decide
  · cases h

theorem standaloneTestChunk_inv (tc : Expr) (c : Chunk)
    (h : standaloneTestChunk tc = some c) (hw : wfE tc = true) : chunkInv c := by
  unfold standaloneTestChunk at h
  split at h
  · rename_i c0 a0 a1 rest sl el
    split at h
    · cases h
    · have hc := (Option.some.inj h).symm
      rw [hc]
      refine ⟨?_, wfE_call_le hw, fun _ => Or.inl rfl⟩
      show "test" ∈ chunkKinds
      decide
  · cases h

theorem describeCallback_mem (a0 a1 : Expr) (rest : List Expr) :
    describeCallback a1 rest ∈ a0 :: a1 :: rest := by
  cases rest with
  | nil => exact List.mem_cons_of_mem _ (List.mem_cons_self _ _)
  | cons a2 r2 =>
    show (if a1.isObjLit then a2 else a1) ∈ a0 :: a1 :: a2 :: r2
    split
    · exact List.mem_cons_of_mem _ (List.mem_cons_of_mem _ (List.mem_cons_self _ _))
    · exact List.mem_cons_of_mem _ (List.mem_cons_self _ _)

theorem genericChunks_inv (f : FileModel)
    (hfn : f.functions.all wfFunc = true)
    (hcl : f.classes.all wfClass = true)
    (hvs : f.varStatements.all wfVarStatement = true) :
    ∀ c ∈ extractGenericChunks f, chunkInv c := by
  intro c hc
  unfold extractGenericChunks at hc
  rcases List.mem_append.mp hc with hc1 | hc2
  rcases List.mem_append.mp hc1 with hfun | hcls
  · obtain ⟨fd, hfd, hce⟩ := List.mem_map.mp hfun
    have hwf : wfFunc fd = true := List.all_eq_true.mp hfn fd hfd
    rw [← hce]
    refine ⟨?_, ble_le hwf, fun he =>
      absurd he (jsOrElse_ne_empty fd.name "<anonymous>" (by decide))⟩
    show "function" ∈ chunkKinds
    decide
  · obtain ⟨cls, hclsm, hcm⟩ := List.mem_flatMap.mp hcls
    have hwc : wfClass cls = true := List.all_eq_true.mp hcl cls hclsm
    simp only [wfClass, Bool.and_eq_true, and_assoc] at hwc
    rcases List.mem_cons.mp hcm with rfl | hmm
    · refine ⟨?_, ble_le hwc.1, fun he =>
        absurd he (jsOrElse_ne_empty cls.name "<anonymous>" (by decide))⟩
      show "class" ∈ chunkKinds
      decide
    · obtain ⟨m, hm, hce⟩ := List.mem_map.mp hmm
      have hwm : wfMethod m = true := List.all_eq_true.mp hwc.2.2.1 m hm
      rw [← hce]
      refine ⟨?_, ble_le hwm, fun he =>
        absurd he (jsOrElse_ne_empty (some m.name) "<anonymous>" (by decide))⟩
      cases hb : m.name == "constructor" with
      | false =>
        simp only [hb]
        show "method" ∈ chunkKinds
        decide
      | true =>
        simp only [hb]
        show "constructor" ∈ chunkKinds
        decide
  · obtain ⟨v, hv, hfv⟩ := List.mem_filterMap.mp hc2
    split at hfv
    · have hce := Option.some.inj hfv
      have hwv : wfVar v = true := by
        obtain ⟨vs, hvs1, hvd⟩ :=
          List.mem_flatMap.mp (by simpa [FileModel.varDecls] using hv)
        exact List.all_eq_true.mp (List.all_eq_true.mp hvs vs hvs1) v hvd
      simp only [wfVar, Bool.and_eq_true] at hwv
      rw [← hce]
      refine ⟨?_, ble_le hwv.2, fun he =>
        absurd he (ne_empty_of_beq (by simpa using hwv.1))⟩
      show "arrow_function" ∈ chunkKinds
      decide
    · cases hfv

theorem specChunks_inv (f : SpecStmts) (hw : wfEL f.stmts = true) :
    ∀ c ∈ extractPlaywrightSpecChunks f, chunkInv c := by
  intro c hc
  unfold extractPlaywrightSpecChunks at hc
  rcases List.mem_append.mp hc with hg | hs
  · unfold groupedChunksOf at hg
    obtain ⟨dc, hdc, hcd⟩ := List.mem_flatMap.mp hg
    have hdcm := (List.mem_filter.mp hdc).1
    obtain ⟨p, hp, hpe⟩ := List.mem_map.mp hdcm
    have hwdc : wfE dc = true := by
      rw [← hpe]
      exact wf_callsCtxL f.stmts [] hw p hp
    unfold describeChunks at hcd
    split at hcd
    · rename_i c0 a0 a1 rest txt sl el
      obtain ⟨tc, htc, hgc⟩ := List.mem_filterMap.mp hcd
      have htcm := (List.mem_filter.mp htc).1
      have hwcb : wfE (describeCallback a1 rest) = true :=
        wfEL_mem (wfE_call_args hwdc) _ (describeCallback_mem a0 a1 rest)
      have hwtc : wfE tc = true := wf_callDescs _ hwcb tc htcm
      exact groupedTestChunk_inv _ tc c hgc hwtc
    · exact absurd hcd (List.not_mem_nil c)
  · unfold standaloneChunksOf at hs
    obtain ⟨ec, hec, he⟩ := List.mem_filterMap.mp hs
    have hwe : wfE ec.1 = true := wf_callsCtxL f.stmts [] hw ec hec
    unfold standaloneEntry at he
    split at he
    · split at he
      · cases he
      · exact standaloneTestChunk_inv ec.1 c he hwe
    · cases he

theorem setupChunks_inv (f : FileModel) (hw : wfEL f.stmts = true) :
    ∀ c ∈ setupChunks f, chunkInv c := by
  intro c hc
  unfold setupChunks at hc
  obtain ⟨ec, hec, he⟩ := List.mem_filterMap.mp hc
  have hwe : wfE ec.1 = true := wf_callsCtxL f.stmts [] hw ec hec
  split at he
  · rename_i cal args txt sl el heq
    rw [heq] at hwe
    split at he
    · split at he
      · have hce := (Option.some.inj he).symm
        rw [hce]
        refine ⟨?_, wfE_call_le hwe, fun _ => Or.inr rfl⟩
        show "setup" ∈ chunkKinds
        decide
      · cases he
    · cases he
  · cases he

theorem extendChunks_inv (f : FileModel) (hw : wfEL f.stmts = true) :
    ∀ c ∈ extendChunks f, chunkInv c := by
  intro c hc
  unfold extendChunks at hc
  obtain ⟨ec, hec, hcm⟩ := List.mem_flatMap.mp hc
  have hwe : wfE ec.1 = true := wf_callsCtxL f.stmts [] hw ec hec
  split at hcm
  · rename_i cal args txt sl el heq
    rw [heq] at hwe
    split at hcm
    · split at hcm
      · rename_i props otxt osl oel rest
        obtain ⟨p, hp, hpe⟩ := List.mem_map.mp hcm
        have hargs : wfEL (Expr.objLit props otxt osl oel :: rest) = true :=
          wfE_call_args hwe
        have hobj : wfE (Expr.objLit props otxt osl oel) = true :=
          wfEL_mem hargs _ (List.mem_cons_self _ _)
        have hps : wfEP props = true := by
          simp only [wfE, Bool.and_eq_true] at hobj
          exact hobj.2
        have hp3 := wfEP_mem hps p hp
        rw [← hpe]
        refine ⟨?_, hp3.2.1, fun he => absurd he (ne_empty_of_beq hp3.1)⟩
        show "fixture" ∈ chunkKinds
        decide
      · exact absurd hcm (List.not_mem_nil c)
    · exact absurd hcm (List.not_mem_nil c)
  · exact absurd hcm (List.not_mem_nil c)

theorem constantChunks_inv (f : FileModel)
    (hvs : f.varStatements.all wfVarStatement = true) :
    ∀ c ∈ constantChunks f, chunkInv c := by
  intro c hc
  unfold constantChunks at hc
  obtain ⟨vs, hvsm, hcm⟩ := List.mem_flatMap.mp hc
  have hwvs : wfVarStatement vs = true := List.all_eq_true.mp hvs vs hvsm
  split at hcm
  · obtain ⟨d, hd, hfd⟩ := List.mem_filterMap.mp hcm
    have hwd : wfVar d = true := List.all_eq_true.mp hwvs d hd
    simp only [wfVar, Bool.and_eq_true] at hwd
    split at hfd
    · have hce := (Option.some.inj hfd).symm
      rw [hce]
      refine ⟨?_, ble_le hwd.2, fun he =>
        absurd he (ne_empty_of_beq (by simpa using hwd.1))⟩
      show "constant" ∈ chunkKinds
      decide
    · have hce := (Option.some.inj hfd).symm
      rw [hce]
      refine ⟨?_, ble_le hwd.2, fun he =>
        absurd he (ne_empty_of_beq (by simpa using hwd.1))⟩
      show "constant" ∈ chunkKinds
      decide
    · cases hfd
  · exact absurd hcm (List.not_mem_nil c)

theorem iifeChunks_inv (f : FileModel) (hw : wfEL f.stmts = true) :
    ∀ c ∈ iifeChunks f, chunkInv c := by
  intro c hc
  unfold iifeChunks at hc
  obtain ⟨ec, hec, he⟩ := List.mem_filterMap.mp hc
  have hwe : wfE ec.1 = true := wf_callsCtxL f.stmts [] hw ec hec
  split at he
  · rename_i t args txt sl el heq
    rw [heq] at hwe
    split at he
    · have hce := (Option.some.inj he).symm
      rw [hce]
      refine ⟨?_, wfE_call_le hwe, fun he2 =>
        absurd he2 (str_append_ne_empty_left "IIFE in " f.fileName (by decide))⟩
      show "iife" ∈ chunkKinds
      decide
    · cases he
  · cases he

theorem edgeChunks_inv (f : FileModel) (hwf : WFFile f) :
    ∀ c ∈ extractEdgeCasePatterns f, chunkInv c := by
  intro c hc
  obtain ⟨hst, hcl, hfn, hvs⟩ := hwf
  simp only [extractEdgeCasePatterns] at hc
  split at hc
  · exact genericChunks_inv f hfn hcl hvs c hc
  · rcases List.mem_append.mp hc with h1 | h4
    rcases List.mem_append.mp h1 with h2 | h3
    rcases List.mem_append.mp h2 with hsu | hex
    · exact setupChunks_inv f hst c hsu
    · exact extendChunks_inv f hst c hex
    · exact constantChunks_inv f hvs c h3
    · exact iifeChunks_inv f hst c h4

theorem extractLocators_inv (className : String) (cls : ClassDecl)
    (hprops : cls.props.all wfProp = true) :
    ∀ c ∈ extractLocatorsFromClass className cls, chunkInv c := by
  intro c h
  unfold extractLocatorsFromClass at h
  cases hctor : cls.ctor with
  | some ctor =>
    rw [hctor] at h
    obtain ⟨p, hp, hfp⟩ := List.mem_filterMap.mp h
    have hwp : wfProp p = true := List.all_eq_true.mp hprops p hp
    simp only [wfProp, Bool.and_eq_true] at hwp
    split at hfp
    · cases hfp
    · split at hfp
      · have hc := (Option.some.inj hfp).symm
        rw [hc]
        refine ⟨?_, Nat.le_add_right _ _, fun he =>
          absurd he (ne_empty_of_beq (by simpa using hwp.1))⟩
        show "locator" ∈ chunkKinds
        decide
      · split at hfp
        · split at hfp
          · have hc := (Option.some.inj hfp).symm
            rw [hc]
            refine ⟨?_, ble_le hwp.2, fun he =>
              absurd he (ne_empty_of_beq (by simpa using hwp.1))⟩
            show "locator" ∈ chunkKinds
            decide
          · cases hfp
        · cases hfp
  | none =>
    rw [hctor] at h
    obtain ⟨p, hp, hfp⟩ := List.mem_filterMap.mp h
    have hwp : wfProp p = true := List.all_eq_true.mp hprops p hp
    simp only [wfProp, Bool.and_eq_true] at hwp
    split at hfp
    · split at hfp
      · have hc := (Option.some.inj hfp).symm
        rw [hc]
        refine ⟨?_, ble_le hwp.2, fun he =>
          absurd he (ne_empty_of_beq (by simpa using hwp.1))⟩
        show "locator" ∈ chunkKinds
        decide
      · cases hfp
    · cases hfp

theorem extractSimple_inv (className : String) (cls : ClassDecl)
    (hprops : cls.props.all wfProp = true) :
    ∀ c ∈ extractSimpleProperties className cls, chunkInv c := by
  intro c hc
  unfold extractSimpleProperties at hc
  rcases mem_simpleInitFold className cls.props _ c hc with hin | ⟨p, hp, -, -, hceq⟩
  · cases hctor : cls.ctor with
    | some ctor =>
      rw [hctor] at hin
      rcases mem_simpleFold className ctor.startLine ctor.bodyText.data _ _ c hin with
        hnil | ⟨m, hm, -, hceq⟩
      · exact absurd hnil (List.not_mem_nil c)
      · obtain ⟨k, hk⟩ :=
          scanAssigns_mem ctor.bodyText.data m.1 m.2.1 m.2.2.1 m.2.2.2 hm
        rw [hceq]
        refine ⟨?_, Nat.le_add_right _ _, fun he =>
          absurd he (matchAssignAt_name_ne_empty _ _ _ _ hk)⟩
        show "helper" ∈ chunkKinds
        decide
    | none =>
      rw [hctor] at hin
      exact absurd hin (List.not_mem_nil c)
  · have hwp : wfProp p = true := List.all_eq_true.mp hprops p hp
    simp only [wfProp, Bool.and_eq_true] at hwp
    rw [hceq]
    refine ⟨?_, ble_le hwp.2, fun he =>
      absurd he (ne_empty_of_beq (by simpa using hwp.1))⟩
    show "helper" ∈ chunkKinds
    decide

theorem methodsChunk_inv (ic : Bool) (className : String) (cls : ClassDecl)
    (c : Chunk) (h : methodsChunk ic className cls = some c)
    (hwc : wfClass cls = true) : chunkInv c := by
  unfold methodsChunk at h
  split at h
  · cases h
  · rename_i m0 rest heq
    have hc := (Option.some.inj h).symm
    simp only [wfClass, Bool.and_eq_true, and_assoc] at hwc
    have hlast := hwc.2.2.2
    rw [heq] at hlast
    rw [hc]
    refine ⟨determineChunkType_mem _ _, ble_le hlast, fun he =>
      absurd he (str_append_ne_empty_right className "_actions" (by decide))⟩

theorem fallbackClassChunk_inv (cls : ClassDecl) (hwc : wfClass cls = true) :
    chunkInv (fallbackClassChunk (jsOrElse cls.name "<anonymous>") cls) := by
  have hble : Nat.ble cls.startLine cls.endLine = true := by
    simp only [wfClass, Bool.and_eq_true, and_assoc] at hwc
    exact hwc.1
  refine ⟨?_, ble_le hble, fun he =>
    absurd he (str_append_ne_empty_right _ "_class" (by decide))⟩
  show "helper" ∈ chunkKinds
  decide

theorem perClassChunks_inv (ic : Bool) (cls : ClassDecl)
    (hwc : wfClass cls = true) :
    ∀ c ∈ perClassChunks ic cls, chunkInv c := by
  intro c hc
  have hprops : cls.props.all wfProp = true := by
    simp only [wfClass, Bool.and_eq_true, and_assoc] at hwc
    exact hwc.2.1
  unfold perClassChunks at hc
  rcases List.mem_append.mp hc with h1 | h2
  rcases List.mem_append.mp h1 with hl | hs
  · exact extractLocators_inv _ cls hprops c hl
  · exact extractSimple_inv _ cls hprops c hs
  · cases hmk : methodsChunk ic (jsOrElse cls.name "<anonymous>") cls with
    | none =>
      rw [hmk] at h2
      exact absurd h2 (List.not_mem_nil c)
    | some mc =>
      rw [hmk] at h2
      have hcm : c = mc := List.mem_singleton.mp (by simpa using h2)
      rw [hcm]
      exact methodsChunk_inv ic _ cls mc hmk hwc

theorem pomStep_sub (ic : Bool) (acc : List Chunk) (cls : ClassDecl) (c : Chunk)
    (hc : c ∈ pomClassStep ic acc cls) :
    c ∈ acc ∨ c ∈ perClassChunks ic cls ∨
      c = fallbackClassChunk (jsOrElse cls.name "<anonymous>") cls := by
  simp only [pomClassStep] at hc
  split at hc
  · split at hc
    · rcases List.mem_append.mp hc with h1 | h2
      · rcases List.mem_append.mp h1 with ha | hp
        · exact Or.inl ha
        · exact Or.inr (Or.inl hp)
      · exact Or.inr (Or.inr (List.mem_singleton.mp h2))
    · rcases List.mem_append.mp hc with h1 | h2
      · exact Or.inl h1
      · exact Or.inr (Or.inl h2)
  · rcases List.mem_append.mp hc with h1 | h2
    · exact Or.inl h1
    · exact Or.inr (Or.inl h2)

theorem pom_foldl_inv (ic : Bool) (classes : List ClassDecl)
    (hall : classes.all wfClass = true) (acc : List Chunk)
    (hacc : ∀ c ∈ acc, chunkInv c) :
    ∀ c ∈ classes.foldl (pomClassStep ic) acc, chunkInv c := by
  induction classes generalizing acc with
  | nil => exact hacc
  | cons cls rest ih =>
    simp only [List.all_cons, Bool.and_eq_true] at hall
    rw [List.foldl_cons]
    refine ih hall.2 _ (fun c hc => ?_)
    rcases pomStep_sub ic acc cls c hc with h1 | h2 | h3
    · exact hacc c h1
    · exact perClassChunks_inv ic cls hall.1 c h2
    · rw [h3]
      exact fallbackClassChunk_inv cls hall.1

theorem pomChunks_inv (ic : Bool) (f : FileModel) (hwf : WFFile f) :
    ∀ c ∈ extractPlaywrightPOMChunks ic f, chunkInv c := by
  intro c hc
  obtain ⟨hst, hcl, hfn, hvs⟩ := hwf
  simp only [extractPlaywrightPOMChunks] at hc
  split at hc
  · split at hc
    · exact edgeChunks_inv f ⟨hst, hcl, hfn, hvs⟩ c hc
    · exact genericChunks_inv f hfn hcl hvs c hc
  · exact pom_foldl_inv ic f.classes hcl []
      (fun c hc0 => absurd hc0 (List.not_mem_nil c)) c hc

/-- C7 (amended): for every input file whose modelled syntax tree is
well-formed — every node's line span is ordered and every binding
identifier is a nonempty token, which ts-morph and the TypeScript grammar
guarantee — every chunk emitted by any of the four extraction paths
(generic, spec, object-file, edge-case) has a kind drawn from the closed
enumeration and an ordered line span (endLine ≥ startLine).  The name
clause of the claim does NOT hold as stated: a chunk's name can be the
empty string, and this happens exactly on `test` chunks (a test call whose
first string argument is empty, see the counterexample) and `setup` chunks
(a setup call whose first string argument is empty); every other path
emits a nonempty name, at worst the `<anonymous>` sentinel. -/
theorem chunk_invariant_all_paths (ic : Bool) (f : FileModel) (hwf : WFFile f)
    (c : Chunk)
    (hc : c ∈ extractGenericChunks f ∨ c ∈ extractPlaywrightSpecChunks ⟨f.stmts⟩ ∨
      c ∈ extractEdgeCasePatterns f ∨ c ∈ extractPlaywrightPOMChunks ic f) :
    c.type ∈ chunkKinds ∧ c.startLine ≤ c.endLine ∧
      (c.name = "" → c.type = "test" ∨ c.type = "setup") := by
  obtain ⟨hst, hcl, hfn, hvs⟩ := hwf
  rcases hc with h | h | h | h
  · exact genericChunks_inv f hfn hcl hvs c h
  · exact specChunks_inv ⟨f.stmts⟩ hst c h
  · exact edgeChunks_inv f ⟨hst, hcl, hfn, hvs⟩ c h
  · exact pomChunks_inv ic f ⟨hst, hcl, hfn, hvs⟩ c h

/-- Witness for the amended C7 theorem at a concrete one-function file:
the file is well-formed, its generic extraction emits the `makeUser`
function chunk, and that chunk satisfies the invariant. -/
theorem chunk_invariant_all_paths_witness :
    WFFile fileInvWitness ∧
    ({ name := "makeUser", type := "function", startLine := 1,
       endLine := 3 } : Chunk) ∈ extractGenericChunks fileInvWitness ∧
    ("function" ∈ chunkKinds ∧ 1 ≤ 3 ∧
      ("makeUser" = "" → "function" = "test" ∨ "function" = "setup")) :=
  ⟨by decide, by decide,
   chunk_invariant_all_paths false fileInvWitness (by decide)
     { name := "makeUser", type := "function", startLine := 1, endLine := 3 }
     (Or.inl (by decide))⟩

end SemanticCodeIndexer
